import Mathlib

/-!
# Stego: LSB steganography in 24-bit bitmaps (`stego.c`)

A shallow embedding of `stego.c` and a verification of its specification.

Modelling conventions.

* A file is the list of its bytes; a byte (`uint8_t`) is a `Fin 256`.
* `size_t` is 64 bits wide (LP64): every `size_t` computation of the source is
  reduced modulo `2 ^ 64`; `uint32_t` computations are reduced modulo `2 ^ 32`.
  The host is little-endian (the header is read by `fread` into a packed
  struct, the length prefix is copied by `memcpy`).
* Every `exit(1)` of the source is an `Error` constructor.  The two undefined
  behaviours the source can run into (an access outside an allocated buffer, a
  division by zero) are the errors `outOfBounds` and `divisionByZero`.
* `malloc` is taken to succeed, and files are taken to be readable; a short
  read of the pixel data is the error `readFailed`.
* A pointer into a buffer is the offset from the start of that buffer.
-/

namespace Stego

/-- One `uint8_t`. -/
abbrev Byte : Type := Fin 256

/-- Number of values of `size_t`. -/
def SIZE : Nat := 2 ^ 64

/-- Number of values of `uint32_t`. -/
def U32 : Nat := 2 ^ 32

/-- The value of `sizeof(BitmapHeader)`: the struct is packed. -/
def sizeofBitmapHeader : Nat := 54

/-- The value of `sizeof(uint32_t)`. -/
def sizeofU32 : Nat := 4

/-- The ways a run of the program ends without a result. -/
inductive Error where
  /-- `readBitmap`: "unexpected end-of-file" (fewer than 54 bytes). -/
  | unexpectedEndOfFile
  /-- `readBitmap`: "incorrect magic number". -/
  | incorrectMagic
  /-- `readBitmap`: "reserved fields must be 0". -/
  | reservedNotZero
  /-- `readBitmap`: "unsupported planes value". -/
  | unsupportedPlanes
  /-- `readBitmap`: "unsupported bit count per pixel". -/
  | unsupportedBitCount
  /-- `readBitmap`: "unsupported compression". -/
  | unsupportedCompression
  /-- `readBitmap`: "file expected to be … bytes but got … bytes only". -/
  | fileTooShort
  /-- `readBitmap`: the `fread` of the pixel data came back short. -/
  | readFailed
  /-- `main -w`: "At least … bytes of bitmap color data is required". -/
  | insufficientCapacity
  /-- `main -r`: "Bitmap too small. This bitmap count not have data." -/
  | bitmapTooSmall
  /-- `main -r`: "Bitmap too small or have no data." -/
  | bitmapTooSmallOrNoData
  /-- Undefined behaviour: a read or write outside an allocated buffer. -/
  | outOfBounds
  /-- Undefined behaviour: `i / rowLength` with `rowLength == 0`. -/
  | divisionByZero
  deriving DecidableEq, Repr

/-- The errors the specification calls `FormatError`. -/
def Error.isFormatError : Error → Bool
  | .unexpectedEndOfFile | .incorrectMagic | .reservedNotZero | .unsupportedPlanes
  | .unsupportedBitCount | .unsupportedCompression | .fileTooShort => true
  | _ => false

/-- The errors the specification calls `CapacityError`. -/
def Error.isCapacityError : Error → Bool
  | .insufficientCapacity | .bitmapTooSmall | .bitmapTooSmallOrNoData => true
  | _ => false

/-- Truncation of an `unsigned` value to `uint8_t`. -/
def toByte (n : Nat) : Byte := ⟨n % 256, Nat.mod_lt n (by decide)⟩

/-- The byte of a file at index `i`, as a number (0 past the end). -/
def byteAt (file : List Byte) (i : Nat) : Nat := (file.getD i 0).val

/-- A little-endian `uint16_t` field at byte offset `off`. -/
def le16 (file : List Byte) (off : Nat) : Nat :=
  byteAt file off + 256 * byteAt file (off + 1)

/-- A little-endian `uint32_t` field at byte offset `off`. -/
def le32 (file : List Byte) (off : Nat) : Nat :=
  byteAt file off + 256 * byteAt file (off + 1) + 65536 * byteAt file (off + 2)
    + 16777216 * byteAt file (off + 3)

/-- The four bytes of a `uint32_t` in memory (little-endian host). -/
def le32Bytes (n : Nat) : List Byte :=
  [toByte n, toByte (n / 256), toByte (n / 65536), toByte (n / 16777216)]

/-- Field `dataOffset` of the packed header (bytes 10..13). -/
def hdrDataOffset (file : List Byte) : Nat := le32 file 10

/-- Field `width` of the packed header (bytes 18..21). -/
def hdrWidth (file : List Byte) : Nat := le32 file 18

/-- Field `height` of the packed header (bytes 22..25). -/
def hdrHeight (file : List Byte) : Nat := le32 file 22

/-- Field `planes` of the packed header (bytes 26..27). -/
def hdrPlanes (file : List Byte) : Nat := le16 file 26

/-- Field `bitCountPerPixel` of the packed header (bytes 28..29). -/
def hdrBitCountPerPixel (file : List Byte) : Nat := le16 file 28

/-- Field `compression` of the packed header (bytes 30..33). -/
def hdrCompression (file : List Byte) : Nat := le32 file 30

/-- The function `align`: `(x + y - 1) / y * y` in `size_t` arithmetic.
Its only caller passes `y = 4`. -/
def align (x y : Nat) : Nat := ((x + y + (SIZE - 1)) % SIZE / y * y) % SIZE

/-- What `readBitmap` hands back: the pixel buffer and its four out-parameters. -/
structure Bitmap where
  data : List Byte
  dataLength : Nat
  availableLength : Nat
  rowLength : Nat
  rowAvailableLength : Nat
  deriving DecidableEq, Repr

/-- The function `readBitmap` on the bytes of the file. -/
def readBitmap (file : List Byte) : Except Error Bitmap :=
  if file.length < sizeofBitmapHeader then .error .unexpectedEndOfFile
  else if ¬ (byteAt file 0 = 0x42 ∧ byteAt file 1 = 0x4d) then .error .incorrectMagic
  else if ¬ (le16 file 6 = 0 ∧ le16 file 8 = 0) then .error .reservedNotZero
  else if hdrPlanes file ≠ 1 then .error .unsupportedPlanes
  else if hdrBitCountPerPixel file ≠ 24 then .error .unsupportedBitCount
  else if hdrCompression file ≠ 0 then .error .unsupportedCompression
  else
    let fileSize := file.length
    let bitmapDataRowAvailableLength := (hdrWidth file * 3) % SIZE
    let bitmapDataRowLength := align bitmapDataRowAvailableLength 4
    let bitmapDataLength := (bitmapDataRowLength * hdrHeight file) % SIZE
    let expectedFileSize := (hdrDataOffset file + bitmapDataLength) % SIZE
    if expectedFileSize > fileSize then .error .fileTooShort
    else
      let data := (file.drop (hdrDataOffset file)).take bitmapDataLength
      if data.length ≠ bitmapDataLength then .error .readFailed
      else .ok
        { data := data
          dataLength := bitmapDataLength
          availableLength := ((hdrWidth file * hdrHeight file) % SIZE * 3) % SIZE
          rowLength := bitmapDataRowLength
          rowAvailableLength := bitmapDataRowAvailableLength }

/-- The function `getBit`: `(x >> i) & 1u`. -/
def getBit (x : Byte) (i : Nat) : Bool := (x.val >>> i) &&& 1 != 0

/-- The function `setBit` on the pointed-to byte: `x | (1u << i)` or
`x & ~(1u << i)` in `unsigned` arithmetic, stored back into a `uint8_t`.
The source only calls it with `i < 8`. -/
def setBit (x : Byte) (i : Nat) (bit : Bool) : Byte :=
  if bit then toByte (x.val ||| (1 <<< i) % U32)
  else toByte (x.val &&& (U32 - 1 - (1 <<< i) % U32))

/-- The function `moveToNextAvailableByte`, with `current` the offset
`*current - start`: the result is the returned offset (`backupCurrent`) and the
new value of `*current`. -/
def moveToNextAvailableByte (current rowLength rowAvailableLength : Nat) :
    Except Error (Nat × Nat) :=
  if rowLength = 0 then .error .divisionByZero
  else
    let i := current + 1
    let rowIndex := i / rowLength
    if i = rowIndex * rowLength + rowAvailableLength then
      .ok (current, i + rowLength - rowAvailableLength)
    else .ok (current, i)

/-- The inner loop of `writeDataToLeastSignificantBitPerRow` for one source
byte `x`: `n` iterations are left, `i` is the loop variable. -/
def writeByteBits (rowLength rowAvailableLength : Nat) (x : Byte) :
    Nat → Nat → List Byte → Nat → Except Error (List Byte × Nat)
  | 0, _, dest, cur => .ok (dest, cur)
  | n + 1, i, dest, cur =>
    match moveToNextAvailableByte cur rowLength rowAvailableLength with
    | .error e => .error e
    | .ok (p, cur') =>
      if p < dest.length then
        writeByteBits rowLength rowAvailableLength x n (i + 1)
          (dest.set p (setBit (dest.getD p 0) 0 (getBit x i))) cur'
      else .error .outOfBounds

/-- The outer loop of `writeDataToLeastSignificantBitPerRow` over the source
bytes still to be written. -/
def writeLoop (rowLength rowAvailableLength : Nat) :
    List Byte → List Byte → Nat → Except Error (List Byte × Nat)
  | [], dest, cur => .ok (dest, cur)
  | x :: xs, dest, cur =>
    match writeByteBits rowLength rowAvailableLength x 8 0 dest cur with
    | .error e => .error e
    | .ok (dest', cur') => writeLoop rowLength rowAvailableLength xs dest' cur'

/-- The function `writeDataToLeastSignificantBitPerRow`; the result is the
destination buffer afterwards. -/
def writeDataToLeastSignificantBitPerRow (destnation source : List Byte)
    (destnationRowLength destnationRowAvailableLength writeLength : Nat) :
    Except Error (List Byte) :=
  if source.length < writeLength then .error .outOfBounds
  else
    match writeLoop destnationRowLength destnationRowAvailableLength
        (source.take writeLength) destnation 0 with
    | .error e => .error e
    | .ok (dest', _) => .ok dest'

/-- The inner loop of `readDataFromLeastSignificantBitPerRow` for one
destination byte, whose current content is `acc`. -/
def readByteBits (rowLength rowAvailableLength : Nat) (source : List Byte) :
    Nat → Nat → Byte → Nat → Except Error (Byte × Nat)
  | 0, _, acc, cur => .ok (acc, cur)
  | n + 1, i, acc, cur =>
    match moveToNextAvailableByte cur rowLength rowAvailableLength with
    | .error e => .error e
    | .ok (p, cur') =>
      if p < source.length then
        readByteBits rowLength rowAvailableLength source n (i + 1)
          (setBit acc i (getBit (source.getD p 0) 0)) cur'
      else .error .outOfBounds

/-- The outer loop of `readDataFromLeastSignificantBitPerRow` over the
destination bytes still to be filled (given with their prior content). -/
def readLoop (rowLength rowAvailableLength : Nat) (source : List Byte) :
    List Byte → Nat → Except Error (List Byte × Nat)
  | [], cur => .ok ([], cur)
  | d :: ds, cur =>
    match readByteBits rowLength rowAvailableLength source 8 0 d cur with
    | .error e => .error e
    | .ok (b, cur') =>
      match readLoop rowLength rowAvailableLength source ds cur' with
      | .error e => .error e
      | .ok (bs, cur'') => .ok (b :: bs, cur'')

/-- The function `readDataFromLeastSignificantBitPerRow`; `destnation` is the
prior content of the destination, the result its first `readLength` bytes
afterwards. -/
def readDataFromLeastSignificantBitPerRow (destnation source : List Byte)
    (sourceRowLength sourceRowAvailableLength readLength : Nat) :
    Except Error (List Byte) :=
  if destnation.length < readLength then .error .outOfBounds
  else
    match readLoop sourceRowLength sourceRowAvailableLength source
        (destnation.take readLength) 0 with
    | .error e => .error e
    | .ok (bytes, _) => .ok bytes

/-- The function `writeBitmapFileWithNewData`: the bytes written to the
destination file, from the bytes of the source file. -/
def writeBitmapFileWithNewData (sourceFile newBitmapData : List Byte)
    (bitmapDataLength : Nat) : Except Error (List Byte) :=
  let fileLength := sourceFile.length
  let dataOffset := hdrDataOffset sourceFile
  if fileLength < dataOffset + bitmapDataLength ∨ newBitmapData.length < bitmapDataLength then
    .error .outOfBounds
  else
    .ok (sourceFile.take dataOffset ++ newBitmapData.take bitmapDataLength
      ++ sourceFile.drop (dataOffset + bitmapDataLength))

/-- The write branch of `main` up to and including the call of
`writeDataToLeastSignificantBitPerRow`: the pixel buffer afterwards. -/
def embedData (bmp : Bitmap) (fileData : List Byte) : Except Error (List Byte) :=
  let fileSize := fileData.length
  let bytesToWrite := (fileSize + sizeofU32) % SIZE
  let requiredBytes := (bytesToWrite * 8) % SIZE
  if requiredBytes > bmp.availableLength then .error .insufficientCapacity
  else
    let dataLength := fileSize % U32
    let bufferSize := (sizeofU32 + dataLength) % U32
    if bufferSize < sizeofU32 + dataLength then .error .outOfBounds
    else
      let buffer := le32Bytes dataLength ++ fileData.take dataLength
      writeDataToLeastSignificantBitPerRow bmp.data buffer bmp.rowLength
        bmp.rowAvailableLength bufferSize

/-- The run `main -w`: from the bytes of the input bitmap and of the input file
to the bytes of the output bitmap. -/
def embed (bitmapFile fileData : List Byte) : Except Error (List Byte) :=
  match readBitmap bitmapFile with
  | .error e => .error e
  | .ok bmp =>
    match embedData bmp fileData with
    | .error e => .error e
    | .ok data' => writeBitmapFileWithNewData bitmapFile data' bmp.dataLength

/-- The content of `n` bytes of uninitialised storage. -/
def uninit (junk : Nat → Byte) (n : Nat) : List Byte := (List.range n).map junk

/-- The read branch of `main` on the result of `readBitmap`: the bytes written
to the output file.  `junk` is the content of uninitialised storage. -/
def extractData (junk : Nat → Byte) (bmp : Bitmap) : Except Error (List Byte) :=
  if bmp.availableLength < sizeofU32 then .error .bitmapTooSmall
  else
    match readDataFromLeastSignificantBitPerRow (uninit junk sizeofU32) bmp.data
        bmp.rowLength bmp.rowAvailableLength sizeofU32 with
    | .error e => .error e
    | .ok lengthBytes =>
      let dataLength := le32 lengthBytes 0
      let requiredBytes := ((dataLength + sizeofU32) % SIZE * 8) % SIZE
      if bmp.availableLength < requiredBytes then .error .bitmapTooSmallOrNoData
      else
        let bufferSize := (sizeofU32 + dataLength) % U32
        match readDataFromLeastSignificantBitPerRow (uninit junk bufferSize) bmp.data
            bmp.rowLength bmp.rowAvailableLength bufferSize with
        | .error e => .error e
        | .ok buffer =>
          if buffer.length < sizeofU32 + dataLength then .error .outOfBounds
          else .ok ((buffer.drop sizeofU32).take dataLength)

/-- The run `main -r`: from the bytes of the input bitmap to the bytes of the
output file. -/
def extract (junk : Nat → Byte) (bitmapFile : List Byte) : Except Error (List Byte) :=
  match readBitmap bitmapFile with
  | .error e => .error e
  | .ok bmp => extractData junk bmp

/-! ## Auxiliary definitions for the proofs -/

/-- The offset of the `n`-th available byte: row `n / rowAvailableLength`, column
`n % rowAvailableLength`. -/
def offsetOf (rowLength rowAvailableLength n : Nat) : Nat :=
  n / rowAvailableLength * rowLength + n % rowAvailableLength

/-- The `m` bits of `x` from bit `i` on, least-significant first. -/
def bitsFrom (x : Byte) : Nat → Nat → List Bool
  | _, 0 => []
  | i, m + 1 => getBit x i :: bitsFrom x (i + 1) m

/-- The bits of a byte sequence in the order the write loop consumes them. -/
def bitsOfBytes : List Byte → List Bool
  | [] => []
  | x :: xs => bitsFrom x 0 8 ++ bitsOfBytes xs

/-- The destination after the bits `bs` have been stored in the least-significant
bits of the available bytes number `n`, `n + 1`, … -/
def putBits (rl ra : Nat) : List Bool → Nat → List Byte → List Byte
  | [], _, dest => dest
  | b :: bs, n, dest =>
    putBits rl ra bs (n + 1)
      (dest.set (offsetOf rl ra n) (setBit (dest.getD (offsetOf rl ra n) 0) 0 b))

/-- The least-significant bit of the `n`-th available byte of `source`. -/
def lsbAt (rl ra : Nat) (source : List Byte) (n : Nat) : Bool :=
  getBit (source.getD (offsetOf rl ra n) 0) 0

/-- The byte `acc` after `m` of its bits, from bit `i` on, have been replaced by
the least-significant bits of the available bytes number `n`, `n + 1`, … -/
def packFrom (rl ra : Nat) (source : List Byte) : Nat → Nat → Nat → Byte → Byte
  | _, 0, _, acc => acc
  | n, m + 1, i, acc => packFrom rl ra source (n + 1) m (i + 1) (setBit acc i (lsbAt rl ra source n))

/-- The bytes read from the available bytes number `n`, `n + 1`, … into a
destination with prior content `dst`. -/
def unpack (rl ra : Nat) (source : List Byte) : Nat → List Byte → List Byte
  | _, [] => []
  | n, d :: ds => packFrom rl ra source n 8 0 d :: unpack rl ra source (n + 8) ds

/-! ## Concrete inputs -/

deriving instance DecidableEq for Except

/-- A 54-byte bitmap header with the given `dataOffset`, `width` and `height`,
the fields the program checks set to the values it accepts and all others 0
(`bitmapHeaderSize` 40). -/
def mkHeader (dataOffset width height : Nat) : List Byte :=
  [0x42, 0x4d] ++ le32Bytes 0 ++ [0, 0, 0, 0] ++ le32Bytes dataOffset ++ le32Bytes 40
    ++ le32Bytes width ++ le32Bytes height ++ [1, 0, 24, 0] ++ le32Bytes 0 ++ le32Bytes 0
    ++ le32Bytes 0 ++ le32Bytes 0 ++ le32Bytes 0 ++ le32Bytes 0

/-- A 54-byte file whose header declares a 4×4 image with `dataOffset = 0`: the
48 bytes of pixel data it declares are the first 48 bytes of the header itself. -/
def overlapFile : List Byte := mkHeader 0 4 4

/-- The pixel buffer `readBitmap` takes from `overlapFile`. -/
def overlapBitmap : Bitmap :=
  { data := overlapFile.take 48, dataLength := 48, availableLength := 48,
    rowLength := 12, rowAvailableLength := 12 }

/-- A 2×2 bitmap: the header and 2 rows of 6 pixel bytes and 2 padding bytes. -/
def bitmap2x2 : List Byte := mkHeader 54 2 2 ++ List.replicate 16 0xff

/-- A 4×4 bitmap: the header and 4 rows of 12 pixel bytes (no padding). -/
def bitmap4x4 : List Byte := mkHeader 54 4 4 ++ List.replicate 48 0xff

/-- The pixel buffer `readBitmap` takes from `bitmap4x4`. -/
def pixels4x4 : Bitmap :=
  { data := List.replicate 48 0xff, dataLength := 48, availableLength := 48,
    rowLength := 12, rowAvailableLength := 12 }

/-- A bitmap header that declares 2 planes, on its own. -/
def twoPlanesFile : List Byte := (mkHeader 54 2 2).set 26 2

/-- A 58-byte file: a header declaring width 2863398913 and height 2147418113,
followed by 4 bytes.  The rows are `8590196740` bytes long, so the pixel data it
declares has `8590196740 * 2147418113 = 2^64 + 4` bytes. -/
def overflowFile : List Byte := mkHeader 54 2863398913 2147418113 ++ List.replicate 4 0xff

/-- A 1×2 bitmap: the header and 2 rows of 3 pixel bytes and 1 padding byte. -/
def bitmap1x2 : List Byte := mkHeader 54 1 2 ++ List.replicate 8 0xff

/-- The offsets returned by `n` successive calls of `moveToNextAvailableByte`,
starting with `*current - start = cur`. -/
def cursorOffsets (rowLength rowAvailableLength : Nat) : Nat → Nat → List Nat
  | 0, _ => []
  | n + 1, cur =>
    match moveToNextAvailableByte cur rowLength rowAvailableLength with
    | .error _ => []
    | .ok (p, cur') => p :: cursorOffsets rowLength rowAvailableLength n cur'

/-- A bitmap of 715827883 × 16 pixels (32 GiB of pixel data, all 0): rows of
`2147483649` available bytes, `availableLength = 34359738384`. -/
def hugeBitmap : List Byte := mkHeader 54 715827883 16 ++ List.replicate 34359738432 0

/-- The pixel buffer `readBitmap` takes from `hugeBitmap`. -/
def hugePixels : Bitmap :=
  { data := (hugeBitmap.drop 54).take 34359738432, dataLength := 34359738432,
    availableLength := 34359738384, rowLength := 2147483652,
    rowAvailableLength := 2147483649 }

/-- A payload of `2^32 - 2` bytes: its length fits 32 bits, that of its frame does
not. -/
def hugePayload : List Byte := List.replicate 4294967294 0

/-- A bitmap of 715827883 × 17 pixels (34 GiB of pixel data, all 0): rows of
`2147483649` available bytes, `availableLength = 36507222033`. -/
def hugeBitmap17 : List Byte := mkHeader 54 715827883 17 ++ List.replicate 36507222084 0

/-- The pixel buffer `readBitmap` takes from `hugeBitmap17`. -/
def hugePixels17 : Bitmap :=
  { data := (hugeBitmap17.drop 54).take 36507222084, dataLength := 36507222084,
    availableLength := 36507222033, rowLength := 2147483652,
    rowAvailableLength := 2147483649 }

/-- A payload of `2^32` bytes `0xff`: its length does not fit 32 bits. -/
def payload4GiB : List Byte := List.replicate 4294967296 0xff

/-- The 4×4 bitmap `bitmap4x4` with the payload `[0x41]` embedded: the
least-significant bits of its first 40 pixel bytes are the bits of the frame
`[1, 0, 0, 0, 0x41]`. -/
def stego4x4 : List Byte :=
  mkHeader 54 4 4 ++ ([0xff, 0xfe, 0xfe, 0xfe, 0xfe, 0xfe, 0xfe, 0xfe]
    ++ List.replicate 24 0xfe ++ [0xff, 0xfe, 0xfe, 0xfe, 0xfe, 0xfe, 0xff, 0xfe]
    ++ List.replicate 8 0xff)

/-- The length the first 32 available bytes of a pixel buffer declare: their
least-significant bits, least-significant bit of each byte first, as a
little-endian `uint32_t`. -/
def declaredLength (rowLength rowAvailableLength : Nat) (data : List Byte) : Nat :=
  le32 (unpack rowLength rowAvailableLength data 0 (List.replicate 4 0)) 0

/-- An all-white bitmap of 715827883 × 17 pixels (34 GiB of pixel data, every byte
`0xff`): the least-significant bits of its first 32 available bytes are all 1. -/
def whiteBitmap17 : List Byte := mkHeader 54 715827883 17 ++ List.replicate 36507222084 0xff

/-- The pixel buffer `readBitmap` takes from `whiteBitmap17`. -/
def whitePixels17 : Bitmap :=
  { data := (whiteBitmap17.drop 54).take 36507222084, dataLength := 36507222084,
    availableLength := 36507222033, rowLength := 2147483652,
    rowAvailableLength := 2147483649 }

/-- An 86-byte file: a header declaring width 2432968054 and height 2527330632,
followed by 32 bytes `0xff`.  The rows are `7298904164` bytes long, so the pixel data
it declares has `7298904164 * 2527330632 = 2^64 + 32` bytes. -/
def overflowWhite : List Byte := mkHeader 54 2432968054 2527330632 ++ List.replicate 32 0xff

/-- The pixel buffer `readBitmap` takes from `overflowWhite`. -/
def overflowWhitePixels : Bitmap :=
  { data := List.replicate 32 0xff, dataLength := 32,
    availableLength := 18446744068654890384, rowLength := 7298904164,
    rowAvailableLength := 7298904162 }

/-- A bitmap of width 0 and height 1: the header alone. -/
def zeroWidthFile : List Byte := mkHeader 54 0 1

/-- The pixel buffer `readBitmap` takes from `zeroWidthFile`: empty, with
`rowLength = 0`. -/
def zeroWidthPixels : Bitmap :=
  { data := [], dataLength := 0, availableLength := 0, rowLength := 0,
    rowAvailableLength := 0 }

/-! ## Bits of a byte -/

theorem getBit_eq_testBit (x : Byte) (i : Nat) : getBit x i = x.val.testBit i := by
  unfold getBit Nat.testBit
  rw [Nat.and_comm]

theorem one_shiftLeft_mod (i : Nat) (hi : i < 8) : (1 <<< i) % U32 = 2 ^ i := by
  rw [Nat.one_shiftLeft]
  apply Nat.mod_eq_of_lt
  calc 2 ^ i < 2 ^ 8 := Nat.pow_lt_pow_right (by norm_num) hi
    _ < U32 := by norm_num [U32]

theorem getBit_setBit (x : Byte) (i j : Nat) (b : Bool) (hi : i < 8) (hj : j < 8) :
    getBit (setBit x i b) j = if j = i then b else getBit x j := by
  have h256 : (256 : Nat) = 2 ^ 8 := by norm_num
  have hlt : 2 ^ i < 2 ^ 32 := Nat.pow_lt_pow_right (by norm_num) (by omega)
  simp only [getBit_eq_testBit, setBit, one_shiftLeft_mod i hi]
  cases b
  · have e : U32 - 1 - 2 ^ i = 2 ^ 32 - (2 ^ i + 1) := by simp only [U32]; omega
    simp only [Bool.false_eq_true, if_false, toByte, e, h256, Nat.testBit_mod_two_pow,
      Nat.testBit_and, Nat.testBit_two_pow_sub_succ hlt, Nat.testBit_two_pow]
    by_cases hji : j = i
    · subst hji; simp
    · have : ¬ i = j := fun h => hji h.symm
      simp [hji, this, hj]; omega
  · simp only [if_true, toByte, h256, Nat.testBit_mod_two_pow, Nat.testBit_or,
      Nat.testBit_two_pow]
    by_cases hji : j = i
    · subst hji; simp [hj]
    · have : ¬ i = j := fun h => hji h.symm
      simp [hji, this, hj]

set_option maxRecDepth 100000 in
theorem getBit_setBit_zero (x : Byte) (b : Bool) : getBit (setBit x 0 b) 0 = b := by
  revert x b; decide

set_option maxRecDepth 100000 in
theorem setBit_zero_shiftRight (x : Byte) (b : Bool) : (setBit x 0 b).val >>> 1 = x.val >>> 1 := by
  revert x b; decide

set_option maxRecDepth 100000 in
theorem setBit_zero_getBit (x : Byte) : setBit x 0 (getBit x 0) = x := by
  revert x; decide

theorem byte_ext (x y : Byte) (h : ∀ j, j < 8 → getBit x j = getBit y j) : x = y := by
  apply Fin.ext
  apply Nat.eq_of_testBit_eq
  intro i
  by_cases hi : i < 8
  · simpa [getBit_eq_testBit] using h i hi
  · have hp : 256 ≤ 2 ^ i := by
      calc 256 = 2 ^ 8 := by norm_num
        _ ≤ 2 ^ i := Nat.pow_le_pow_right (by norm_num) (by omega)
    rw [Nat.testBit_lt_two_pow (lt_of_lt_of_le x.isLt hp),
      Nat.testBit_lt_two_pow (lt_of_lt_of_le y.isLt hp)]

/-! ## The cursor: `moveToNextAvailableByte` enumerates the available bytes -/

theorem offsetOf_zero (rl ra : Nat) : offsetOf rl ra 0 = 0 := by
  simp [offsetOf]

theorem offsetOf_succ (rl ra n : Nat) (hra : 0 < ra) :
    offsetOf rl ra (n + 1) =
      if n % ra + 1 = ra then (n / ra + 1) * rl else offsetOf rl ra n + 1 := by
  unfold offsetOf
  have hdm := Nat.div_add_mod n ra
  have hlt := Nat.mod_lt n hra
  by_cases h : n % ra + 1 = ra
  · have h1 : (n + 1) / ra = n / ra + 1 := by
      apply Nat.div_eq_of_lt_le
      · calc (n / ra + 1) * ra = ra * (n / ra) + ra := by ring
          _ ≤ n + 1 := by omega
      · calc n + 1 = ra * (n / ra) + ra := by omega
          _ < (n / ra + 1 + 1) * ra := by nlinarith
    have h2 : (n + 1) % ra = 0 := by
      have := Nat.div_add_mod (n + 1) ra
      rw [h1] at this
      have e : ra * (n / ra + 1) = ra * (n / ra) + ra := by ring
      omega
    rw [if_pos h, h1, h2]; simp
  · have h1 : (n + 1) / ra = n / ra := by
      apply Nat.div_eq_of_lt_le
      · calc n / ra * ra = ra * (n / ra) := by ring
          _ ≤ n + 1 := by omega
      · calc n + 1 < ra * (n / ra) + ra := by omega
          _ = (n / ra + 1) * ra := by ring
    have h2 : (n + 1) % ra = n % ra + 1 := by
      have := Nat.div_add_mod (n + 1) ra
      rw [h1] at this
      omega
    rw [if_neg h, h1, h2]; ring

theorem div_of_between (a q d : Nat) (h1 : q * d ≤ a) (h2 : a < (q + 1) * d) : a / d = q :=
  Nat.div_eq_of_lt_le h1 h2

theorem move_offsetOf (rl ra n : Nat) (hra : 0 < ra) (hle : ra ≤ rl) :
    moveToNextAvailableByte (offsetOf rl ra n) rl ra
      = .ok (offsetOf rl ra n, offsetOf rl ra (n + 1)) := by
  have hrl : rl ≠ 0 := by omega
  have hlt := Nat.mod_lt n hra
  have hs := offsetOf_succ rl ra n hra
  have e1 : (n / ra + 1) * rl = n / ra * rl + rl := by ring
  have e2 : (n / ra + 1 + 1) * rl = n / ra * rl + rl + rl := by ring
  unfold moveToNextAvailableByte
  rw [if_neg hrl]
  simp only []
  by_cases h : n % ra + 1 = ra
  · rw [if_pos h] at hs
    by_cases hlt2 : ra < rl
    · have hq : (offsetOf rl ra n + 1) / rl = n / ra := by
        apply div_of_between
        · unfold offsetOf; omega
        · unfold offsetOf; omega
      rw [hq, if_pos (by unfold offsetOf; omega), hs]
      congr 2
      unfold offsetOf; omega
    · have hq : (offsetOf rl ra n + 1) / rl = n / ra + 1 := by
        apply div_of_between
        · unfold offsetOf; omega
        · unfold offsetOf; omega
      rw [hq, if_neg (by unfold offsetOf; omega), hs]
      congr 2
      unfold offsetOf; omega
  · rw [if_neg h] at hs
    have hq : (offsetOf rl ra n + 1) / rl = n / ra := by
      apply div_of_between
      · unfold offsetOf; omega
      · unfold offsetOf; omega
    rw [hq, if_neg (by unfold offsetOf; omega), hs]

theorem offsetOf_lt_succ (rl ra n : Nat) (hra : 0 < ra) (hle : ra ≤ rl) :
    offsetOf rl ra n < offsetOf rl ra (n + 1) := by
  have hlt := Nat.mod_lt n hra
  rw [offsetOf_succ rl ra n hra]
  have e1 : (n / ra + 1) * rl = n / ra * rl + rl := by ring
  split
  · unfold offsetOf; omega
  · omega

theorem offsetOf_strictMono (rl ra : Nat) (hra : 0 < ra) (hle : ra ≤ rl) :
    StrictMono (offsetOf rl ra) :=
  strictMono_nat_of_lt_succ (fun n => offsetOf_lt_succ rl ra n hra hle)

theorem offsetOf_mod (rl ra n : Nat) (hra : 0 < ra) (hle : ra ≤ rl) :
    offsetOf rl ra n % rl = n % ra := by
  unfold offsetOf
  rw [Nat.mul_add_mod_of_lt]
  exact lt_of_lt_of_le (Nat.mod_lt n hra) hle

theorem offsetOf_lt (rl ra h n : Nat) (hra : 0 < ra) (hle : ra ≤ rl) (hn : n < ra * h) :
    offsetOf rl ra n < rl * h := by
  have hq : n / ra < h := Nat.div_lt_of_lt_mul hn
  have hlt := Nat.mod_lt n hra
  unfold offsetOf
  calc n / ra * rl + n % ra < n / ra * rl + rl := by omega
    _ = (n / ra + 1) * rl := by ring
    _ ≤ h * rl := Nat.mul_le_mul_right rl hq
    _ = rl * h := by ring

theorem offsetOf_eq_add (rl ra n : Nat) (hle : ra ≤ rl) :
    offsetOf rl ra n = n + n / ra * (rl - ra) := by
  unfold offsetOf
  have h1 : n / ra * rl = n / ra * ra + n / ra * (rl - ra) := by
    rw [← Nat.mul_add]; congr 1; omega
  have h2 := Nat.div_add_mod n ra
  have h3 : ra * (n / ra) = n / ra * ra := Nat.mul_comm _ _
  omega

theorem offsetOf_onto (rl ra j : Nat) (hra : 0 < ra) (hj : j % rl < ra) :
    offsetOf rl ra (j / rl * ra + j % rl) = j := by
  unfold offsetOf
  have h1 : (j / rl * ra + j % rl) / ra = j / rl := by
    rw [Nat.mul_comm, Nat.mul_add_div hra, Nat.div_eq_of_lt hj, Nat.add_zero]
  have h2 : (j / rl * ra + j % rl) % ra = j % rl := by
    rw [Nat.mul_comm, Nat.mul_add_mod, Nat.mod_eq_of_lt hj]
  rw [h1, h2, Nat.mul_comm]
  exact Nat.div_add_mod j rl

theorem move_error (cur rl ra : Nat) (e : Error)
    (h : moveToNextAvailableByte cur rl ra = .error e) : e = .divisionByZero := by
  unfold moveToNextAvailableByte at h
  simp only [] at h
  split_ifs at h
  injection h with h
  exact h.symm

theorem move_no_jump (cur rl : Nat) (hrl : 0 < rl) :
    moveToNextAvailableByte cur rl rl = .ok (cur, cur + 1) := by
  unfold moveToNextAvailableByte
  rw [if_neg (by omega)]
  simp only []
  rw [if_neg]
  intro h
  have h1 := Nat.div_add_mod (cur + 1) rl
  have h2 := Nat.mod_lt (cur + 1) hrl
  have h3 : rl * ((cur + 1) / rl) = (cur + 1) / rl * rl := Nat.mul_comm _ _
  omega

theorem cursorOffsets_eq (rl ra : Nat) (hra : 0 < ra) (hle : ra ≤ rl) (count m : Nat) :
    cursorOffsets rl ra count (offsetOf rl ra m)
      = (List.range' m count).map (offsetOf rl ra) := by
  induction count generalizing m with
  | zero => rfl
  | succ n ih =>
    rw [cursorOffsets, move_offsetOf rl ra m hra hle]
    simp only []
    rw [ih (m + 1), List.range'_succ, List.map_cons]

/-! ## The write loop -/

theorem bitsFrom_length (x : Byte) (i m : Nat) : (bitsFrom x i m).length = m := by
  induction m generalizing i with
  | zero => rfl
  | succ m ih => simp [bitsFrom, ih]

theorem bitsOfBytes_length (xs : List Byte) : (bitsOfBytes xs).length = 8 * xs.length := by
  induction xs with
  | nil => rfl
  | cons x xs ih => simp [bitsOfBytes, bitsFrom_length, ih]; omega

theorem bitsOfBytes_append (xs ys : List Byte) :
    bitsOfBytes (xs ++ ys) = bitsOfBytes xs ++ bitsOfBytes ys := by
  induction xs with
  | nil => rfl
  | cons x xs ih =>
    show bitsFrom x 0 8 ++ bitsOfBytes (xs ++ ys) = (bitsFrom x 0 8 ++ bitsOfBytes xs) ++ _
    rw [ih, List.append_assoc]

theorem bitsFrom_getElem? (x : Byte) (i m k : Nat) (hk : k < m) :
    (bitsFrom x i m)[k]? = some (getBit x (i + k)) := by
  induction m generalizing i k with
  | zero => omega
  | succ m ih =>
    cases k with
    | zero => simp [bitsFrom]
    | succ k =>
      simp only [bitsFrom, List.getElem?_cons_succ]
      rw [ih (i + 1) k (by omega)]
      congr 2; omega

theorem bitsOfBytes_getElem? (xs : List Byte) (k : Nat) (hk : k < 8 * xs.length) :
    (bitsOfBytes xs)[k]? = some (getBit (xs.getD (k / 8) 0) (k % 8)) := by
  induction xs generalizing k with
  | nil => simp at hk
  | cons x xs ih =>
    rw [bitsOfBytes]
    by_cases h8 : k < 8
    · rw [List.getElem?_append_left (by rw [bitsFrom_length]; exact h8),
        bitsFrom_getElem? x 0 8 k h8]
      have e1 : k / 8 = 0 := by omega
      have e2 : k % 8 = k := by omega
      rw [e1, e2, Nat.zero_add, List.getD_cons_zero]
    · rw [List.getElem?_append_right (by rw [bitsFrom_length]; omega), bitsFrom_length,
        ih (k - 8) (by simp only [List.length_cons] at hk; omega)]
      have e1 : k / 8 = (k - 8) / 8 + 1 := by omega
      have e2 : k % 8 = (k - 8) % 8 := by omega
      rw [e1, e2, List.getD_cons_succ]

theorem putBits_length (rl ra : Nat) (bs : List Bool) (n : Nat) (dest : List Byte) :
    (putBits rl ra bs n dest).length = dest.length := by
  induction bs generalizing n dest with
  | nil => rfl
  | cons b bs ih => simp [putBits, ih]

theorem putBits_append (rl ra : Nat) (as bs : List Bool) (n : Nat) (dest : List Byte) :
    putBits rl ra (as ++ bs) n dest = putBits rl ra bs (n + as.length) (putBits rl ra as n dest) := by
  induction as generalizing n dest with
  | nil => rfl
  | cons a as ih =>
    show putBits rl ra (as ++ bs) (n + 1) _ = putBits rl ra bs (n + (as.length + 1)) _
    rw [ih, show n + 1 + as.length = n + (as.length + 1) by omega]
    rfl

theorem putBits_getElem?_of_ne (rl ra : Nat) (bs : List Bool) (n : Nat) (dest : List Byte) (j : Nat)
    (h : ∀ k, k < bs.length → offsetOf rl ra (n + k) ≠ j) :
    (putBits rl ra bs n dest)[j]? = dest[j]? := by
  induction bs generalizing n dest with
  | nil => rfl
  | cons b bs ih =>
    rw [putBits, ih]
    · exact List.getElem?_set_ne (h 0 (by simp))
    · intro k hk
      have := h (k + 1) (by simp only [List.length_cons]; omega)
      rwa [show n + (k + 1) = n + 1 + k by omega] at this

theorem putBits_lsb (rl ra : Nat) (hra : 0 < ra) (hle : ra ≤ rl) (bs : List Bool) (n : Nat)
    (dest : List Byte) (k : Nat) (hk : k < bs.length)
    (hin : offsetOf rl ra (n + k) < dest.length) :
    ((putBits rl ra bs n dest)[offsetOf rl ra (n + k)]?).map (fun v => getBit v 0) = bs[k]? := by
  induction bs generalizing n dest k with
  | nil => simp at hk
  | cons b bs ih =>
    cases k with
    | zero =>
      rw [putBits, putBits_getElem?_of_ne]
      · simp only [Nat.add_zero] at hin ⊢
        rw [List.getElem?_set_self hin]
        simp [getBit_setBit_zero]
      · intro k _
        have := offsetOf_strictMono rl ra hra hle (show n + 0 < n + 1 + k by omega)
        omega
    | succ k =>
      rw [putBits, show n + (k + 1) = n + 1 + k by omega]
      rw [ih (n + 1) _ k (by simpa using hk)]
      · simp
      · rw [List.length_set]
        rwa [show n + (k + 1) = n + 1 + k by omega] at hin

theorem lsbAt_putBits (rl ra : Nat) (hra : 0 < ra) (hle : ra ≤ rl) (bs : List Bool)
    (dest : List Byte) (k : Nat) (hk : k < bs.length) (hin : offsetOf rl ra k < dest.length) :
    some (lsbAt rl ra (putBits rl ra bs 0 dest) k) = bs[k]? := by
  have h := putBits_lsb rl ra hra hle bs 0 dest k hk (by rwa [Nat.zero_add])
  rw [Nat.zero_add] at h
  have hl : offsetOf rl ra k < (putBits rl ra bs 0 dest).length := by
    rwa [putBits_length]
  rw [← h, List.getElem?_eq_getElem hl]
  unfold lsbAt
  rw [List.getD_eq_getElem?_getD, List.getElem?_eq_getElem hl]
  rfl

theorem set_getD_self (dest : List Byte) (p : Nat) : dest.set p (dest.getD p 0) = dest := by
  apply List.ext_getElem?
  intro j
  by_cases hjp : p = j
  · subst hjp
    by_cases hp : p < dest.length
    · rw [List.getElem?_set_self hp, List.getD_eq_getElem?_getD, List.getElem?_eq_getElem hp]
      rfl
    · rw [List.set_eq_of_length_le (by omega)]
  · rw [List.getElem?_set_ne hjp]

/-- Storing into the available bytes the least-significant bits they already have
changes nothing. -/
theorem putBits_self (rl ra : Nat) (bs : List Bool) (n : Nat) (dest : List Byte)
    (h : ∀ k, k < bs.length → bs[k]? = some (lsbAt rl ra dest (n + k))) :
    putBits rl ra bs n dest = dest := by
  induction bs generalizing n with
  | nil => rfl
  | cons b bs ih =>
    have h0 := h 0 (by simp)
    simp only [List.getElem?_cons_zero, Option.some.injEq, Nat.add_zero] at h0
    rw [putBits, h0]
    unfold lsbAt
    rw [setBit_zero_getBit, set_getD_self]
    apply ih
    intro k hk
    have := h (k + 1) (by simp only [List.length_cons]; omega)
    rw [List.getElem?_cons_succ] at this
    rw [this, show n + (k + 1) = n + 1 + k by omega]

theorem forall_lt_succ_left (P : Nat → Prop) (m : Nat) :
    (∀ k, k < m + 1 → P k) ↔ P 0 ∧ ∀ k, k < m → P (k + 1) := by
  constructor
  · intro h
    exact ⟨h 0 (by omega), fun k hk => h (k + 1) (by omega)⟩
  · rintro ⟨h0, h1⟩ k hk
    cases k with
    | zero => exact h0
    | succ k => exact h1 k (by omega)

theorem writeByteBits_eq (rl ra : Nat) (hra : 0 < ra) (hle : ra ≤ rl) (x : Byte)
    (m i : Nat) (dest : List Byte) (n : Nat) :
    writeByteBits rl ra x m i dest (offsetOf rl ra n) =
      if ∀ k, k < m → offsetOf rl ra (n + k) < dest.length then
        .ok (putBits rl ra (bitsFrom x i m) n dest, offsetOf rl ra (n + m))
      else .error .outOfBounds := by
  induction m generalizing i dest n with
  | zero => simp [writeByteBits, bitsFrom, putBits]
  | succ m ih =>
    rw [writeByteBits, move_offsetOf rl ra n hra hle]
    simp only []
    by_cases h0 : offsetOf rl ra n < dest.length
    · rw [if_pos h0, ih]
      simp only [List.length_set, bitsFrom, putBits]
      have e : ∀ k, n + 1 + k = n + (k + 1) := fun k => by omega
      have e2 : n + 1 + m = n + (m + 1) := by omega
      simp only [e, e2]
      by_cases h1 : ∀ k, k < m → offsetOf rl ra (n + (k + 1)) < dest.length
      · rw [if_pos h1, if_pos]
        exact (forall_lt_succ_left (fun k => offsetOf rl ra (n + k) < dest.length) m).2 ⟨h0, h1⟩
      · rw [if_neg h1, if_neg]
        intro h
        exact h1 ((forall_lt_succ_left (fun k => offsetOf rl ra (n + k) < dest.length) m).1 h).2
    · rw [if_neg h0, if_neg]
      intro h
      exact h0 (h 0 (by omega))

theorem writeLoop_eq (rl ra : Nat) (hra : 0 < ra) (hle : ra ≤ rl) (src dest : List Byte) (n : Nat) :
    writeLoop rl ra src dest (offsetOf rl ra n) =
      if ∀ k, k < 8 * src.length → offsetOf rl ra (n + k) < dest.length then
        .ok (putBits rl ra (bitsOfBytes src) n dest, offsetOf rl ra (n + 8 * src.length))
      else .error .outOfBounds := by
  induction src generalizing dest n with
  | nil => simp [writeLoop, bitsOfBytes, putBits]
  | cons x xs ih =>
    rw [writeLoop, writeByteBits_eq rl ra hra hle]
    by_cases h0 : ∀ k, k < 8 → offsetOf rl ra (n + k) < dest.length
    · rw [if_pos h0]
      simp only []
      rw [ih]
      simp only [putBits_length, bitsOfBytes, putBits_append, bitsFrom_length, List.length_cons]
      have e2 : n + 8 + 8 * xs.length = n + 8 * (xs.length + 1) := by omega
      rw [e2]
      by_cases h1 : ∀ k, k < 8 * xs.length → offsetOf rl ra (n + 8 + k) < dest.length
      · rw [if_pos h1, if_pos]
        intro k hk
        by_cases hk8 : k < 8
        · exact h0 k hk8
        · have := h1 (k - 8) (by omega)
          rwa [show n + 8 + (k - 8) = n + k by omega] at this
      · rw [if_neg h1, if_neg]
        intro h
        apply h1
        intro k hk
        have := h (8 + k) (by omega)
        rwa [show n + (8 + k) = n + 8 + k by omega] at this
    · rw [if_neg h0]
      simp only []
      rw [if_neg]
      intro h
      exact h0 (fun k hk => h k (by simp only [List.length_cons]; omega))

theorem writeData_eq (rl ra : Nat) (hra : 0 < ra) (hle : ra ≤ rl) (dest src : List Byte)
    (wl : Nat) (hwl : wl ≤ src.length) :
    writeDataToLeastSignificantBitPerRow dest src rl ra wl =
      if ∀ k, k < 8 * wl → offsetOf rl ra k < dest.length then
        .ok (putBits rl ra (bitsOfBytes (src.take wl)) 0 dest)
      else .error .outOfBounds := by
  unfold writeDataToLeastSignificantBitPerRow
  rw [if_neg (by omega)]
  have := writeLoop_eq rl ra hra hle (src.take wl) dest 0
  rw [offsetOf_zero] at this
  rw [this]
  simp only [List.length_take, Nat.min_eq_left hwl, Nat.zero_add]
  by_cases hc : ∀ k, k < 8 * wl → offsetOf rl ra k < dest.length
  · rw [if_pos hc, if_pos hc]
  · rw [if_neg hc, if_neg hc]

/-- The write returns when the geometry is that of a pixel buffer with its
`rowLength * height` bytes and the source is within capacity. -/
theorem writeData_returns (dest source : List Byte) (rl ra height wl : Nat)
    (hra : 0 < ra) (hle : ra ≤ rl) (hsrc : wl ≤ source.length)
    (hcap : wl * 8 ≤ ra * height) (hbuf : rl * height ≤ dest.length) :
    writeDataToLeastSignificantBitPerRow dest source rl ra wl
      = .ok (putBits rl ra (bitsOfBytes (source.take wl)) 0 dest) := by
  rw [writeData_eq _ _ hra hle _ _ _ hsrc, if_pos]
  intro k hk
  exact lt_of_lt_of_le (offsetOf_lt _ _ height k hra hle (by omega)) hbuf

theorem writeByteBits_length (rl ra : Nat) (x : Byte) (n i : Nat) (dest : List Byte) (cur : Nat)
    (r : List Byte × Nat) (h : writeByteBits rl ra x n i dest cur = .ok r) :
    r.1.length = dest.length := by
  induction n generalizing i dest cur with
  | zero =>
    rw [writeByteBits] at h
    injection h with h
    rw [← h]
  | succ n ih =>
    rw [writeByteBits] at h
    cases hm : moveToNextAvailableByte cur rl ra with
    | error e => rw [hm] at h; cases h
    | ok pc =>
      obtain ⟨p, c⟩ := pc
      rw [hm] at h
      simp only [] at h
      split_ifs at h with hp
      rw [ih _ _ _ h, List.length_set]

theorem writeLoop_length (rl ra : Nat) (src dest : List Byte) (cur : Nat)
    (r : List Byte × Nat) (h : writeLoop rl ra src dest cur = .ok r) :
    r.1.length = dest.length := by
  induction src generalizing dest cur with
  | nil =>
    rw [writeLoop] at h
    injection h with h
    rw [← h]
  | cons x xs ih =>
    rw [writeLoop] at h
    cases hb : writeByteBits rl ra x 8 0 dest cur with
    | error e => rw [hb] at h; cases h
    | ok dc =>
      obtain ⟨d, c⟩ := dc
      rw [hb] at h
      simp only [] at h
      rw [ih _ _ h, writeByteBits_length rl ra x 8 0 dest cur _ hb]

theorem writeData_length (dest src : List Byte) (rl ra wl : Nat) (dest' : List Byte)
    (h : writeDataToLeastSignificantBitPerRow dest src rl ra wl = .ok dest') :
    dest'.length = dest.length := by
  unfold writeDataToLeastSignificantBitPerRow at h
  split_ifs at h
  cases hl : writeLoop rl ra (List.take wl src) dest 0 with
  | error e => rw [hl] at h; cases h
  | ok dc =>
    obtain ⟨d, c⟩ := dc
    rw [hl] at h
    simp only [] at h
    injection h with h
    rw [← h]
    exact writeLoop_length rl ra _ dest 0 _ hl

theorem set_lsb_high (dest : List Byte) (p : Nat) (b : Bool) (j : Nat) :
    ((dest.set p (setBit (dest.getD p 0) 0 b))[j]?).map (fun v => v.val >>> 1)
      = (dest[j]?).map (fun v => v.val >>> 1) := by
  by_cases hjp : p = j
  · subst hjp
    by_cases hp : p < dest.length
    · rw [List.getElem?_set_self hp, List.getD_eq_getElem?_getD, List.getElem?_eq_getElem hp]
      simp only [Option.map_some', Option.getD_some, setBit_zero_shiftRight]
    · rw [List.getElem?_eq_none (by rw [List.length_set]; omega),
        List.getElem?_eq_none (by omega)]
  · rw [List.getElem?_set_ne hjp]

theorem writeByteBits_high (rl ra : Nat) (x : Byte) (n i : Nat) (dest : List Byte) (cur : Nat)
    (r : List Byte × Nat) (h : writeByteBits rl ra x n i dest cur = .ok r) (j : Nat) :
    (r.1[j]?).map (fun v => v.val >>> 1) = (dest[j]?).map (fun v => v.val >>> 1) := by
  induction n generalizing i dest cur with
  | zero =>
    rw [writeByteBits] at h
    injection h with h
    rw [← h]
  | succ n ih =>
    rw [writeByteBits] at h
    cases hm : moveToNextAvailableByte cur rl ra with
    | error e => rw [hm] at h; cases h
    | ok pc =>
      obtain ⟨p, c⟩ := pc
      rw [hm] at h
      simp only [] at h
      split_ifs at h with hp
      rw [ih _ _ _ h, set_lsb_high]

theorem writeLoop_high (rl ra : Nat) (src dest : List Byte) (cur : Nat)
    (r : List Byte × Nat) (h : writeLoop rl ra src dest cur = .ok r) (j : Nat) :
    (r.1[j]?).map (fun v => v.val >>> 1) = (dest[j]?).map (fun v => v.val >>> 1) := by
  induction src generalizing dest cur with
  | nil =>
    rw [writeLoop] at h
    injection h with h
    rw [← h]
  | cons x xs ih =>
    rw [writeLoop] at h
    cases hb : writeByteBits rl ra x 8 0 dest cur with
    | error e => rw [hb] at h; cases h
    | ok dc =>
      obtain ⟨d, c⟩ := dc
      rw [hb] at h
      simp only [] at h
      rw [ih _ _ h, writeByteBits_high rl ra x 8 0 dest cur _ hb]

theorem writeData_high (dest src : List Byte) (rl ra wl : Nat) (dest' : List Byte)
    (h : writeDataToLeastSignificantBitPerRow dest src rl ra wl = .ok dest') (j : Nat) :
    (dest'[j]?).map (fun v => v.val >>> 1) = (dest[j]?).map (fun v => v.val >>> 1) := by
  unfold writeDataToLeastSignificantBitPerRow at h
  split_ifs at h
  cases hl : writeLoop rl ra (List.take wl src) dest 0 with
  | error e => rw [hl] at h; cases h
  | ok dc =>
    obtain ⟨d, c⟩ := dc
    rw [hl] at h
    simp only [] at h
    injection h with h
    rw [← h]
    exact writeLoop_high rl ra _ dest 0 _ hl j

theorem writeByteBits_error (rl ra : Nat) (x : Byte) (n i : Nat) (dest : List Byte) (cur : Nat)
    (e : Error) (h : writeByteBits rl ra x n i dest cur = .error e) :
    e.isCapacityError = false := by
  induction n generalizing i dest cur with
  | zero => rw [writeByteBits] at h; cases h
  | succ n ih =>
    rw [writeByteBits] at h
    cases hm : moveToNextAvailableByte cur rl ra with
    | error e' =>
      rw [hm] at h
      injection h with h
      rw [← h, move_error _ _ _ _ hm]
      rfl
    | ok pc =>
      obtain ⟨p, c⟩ := pc
      rw [hm] at h
      simp only [] at h
      split_ifs at h with hp
      · exact ih _ _ _ h
      · injection h with h
        rw [← h]
        rfl

theorem writeLoop_error (rl ra : Nat) (src dest : List Byte) (cur : Nat) (e : Error)
    (h : writeLoop rl ra src dest cur = .error e) : e.isCapacityError = false := by
  induction src generalizing dest cur with
  | nil => rw [writeLoop] at h; cases h
  | cons x xs ih =>
    rw [writeLoop] at h
    cases hb : writeByteBits rl ra x 8 0 dest cur with
    | error e' =>
      rw [hb] at h
      injection h with h
      rw [← h]
      exact writeByteBits_error _ _ _ _ _ _ _ _ hb
    | ok dc =>
      obtain ⟨d, c⟩ := dc
      rw [hb] at h
      exact ih _ _ h

theorem writeData_error (dest src : List Byte) (rl ra wl : Nat) (e : Error)
    (h : writeDataToLeastSignificantBitPerRow dest src rl ra wl = .error e) :
    e.isCapacityError = false := by
  unfold writeDataToLeastSignificantBitPerRow at h
  split_ifs at h
  · injection h with h
    rw [← h]
    rfl
  · cases hl : writeLoop rl ra (List.take wl src) dest 0 with
    | error e' =>
      rw [hl] at h
      injection h with h
      rw [← h]
      exact writeLoop_error _ _ _ _ _ _ hl
    | ok dc =>
      obtain ⟨d, c⟩ := dc
      rw [hl] at h
      cases h

/-! ## The read loop -/

theorem unpack_length (rl ra : Nat) (source : List Byte) (n : Nat) (dst : List Byte) :
    (unpack rl ra source n dst).length = dst.length := by
  induction dst generalizing n with
  | nil => rfl
  | cons d ds ih => simp [unpack, ih]

theorem readByteBits_eq (rl ra : Nat) (hra : 0 < ra) (hle : ra ≤ rl) (source : List Byte)
    (m i : Nat) (acc : Byte) (n : Nat) :
    readByteBits rl ra source m i acc (offsetOf rl ra n) =
      if ∀ k, k < m → offsetOf rl ra (n + k) < source.length then
        .ok (packFrom rl ra source n m i acc, offsetOf rl ra (n + m))
      else .error .outOfBounds := by
  induction m generalizing i acc n with
  | zero => simp [readByteBits, packFrom]
  | succ m ih =>
    rw [readByteBits, move_offsetOf rl ra n hra hle]
    simp only []
    by_cases h0 : offsetOf rl ra n < source.length
    · rw [if_pos h0, ih]
      simp only [packFrom, lsbAt]
      have e : ∀ k, n + 1 + k = n + (k + 1) := fun k => by omega
      have e2 : n + 1 + m = n + (m + 1) := by omega
      simp only [e, e2]
      by_cases h1 : ∀ k, k < m → offsetOf rl ra (n + (k + 1)) < source.length
      · rw [if_pos h1, if_pos]
        exact (forall_lt_succ_left (fun k => offsetOf rl ra (n + k) < source.length) m).2 ⟨h0, h1⟩
      · rw [if_neg h1, if_neg]
        intro h
        exact h1 ((forall_lt_succ_left (fun k => offsetOf rl ra (n + k) < source.length) m).1 h).2
    · rw [if_neg h0, if_neg]
      intro h
      exact h0 (h 0 (by omega))

theorem readLoop_eq (rl ra : Nat) (hra : 0 < ra) (hle : ra ≤ rl) (source dst : List Byte) (n : Nat) :
    readLoop rl ra source dst (offsetOf rl ra n) =
      if ∀ k, k < 8 * dst.length → offsetOf rl ra (n + k) < source.length then
        .ok (unpack rl ra source n dst, offsetOf rl ra (n + 8 * dst.length))
      else .error .outOfBounds := by
  induction dst generalizing n with
  | nil => simp [readLoop, unpack]
  | cons d ds ih =>
    rw [readLoop, readByteBits_eq rl ra hra hle]
    by_cases h0 : ∀ k, k < 8 → offsetOf rl ra (n + k) < source.length
    · rw [if_pos h0]
      simp only []
      rw [ih]
      simp only [unpack, List.length_cons]
      have e2 : n + 8 + 8 * ds.length = n + 8 * (ds.length + 1) := by omega
      rw [e2]
      by_cases h1 : ∀ k, k < 8 * ds.length → offsetOf rl ra (n + 8 + k) < source.length
      · rw [if_pos h1, if_pos]
        intro k hk
        by_cases hk8 : k < 8
        · exact h0 k hk8
        · have := h1 (k - 8) (by omega)
          rwa [show n + 8 + (k - 8) = n + k by omega] at this
      · rw [if_neg h1, if_neg]
        intro h
        apply h1
        intro k hk
        have := h (8 + k) (by omega)
        rwa [show n + (8 + k) = n + 8 + k by omega] at this
    · rw [if_neg h0]
      simp only []
      rw [if_neg]
      intro h
      exact h0 (fun k hk => h k (by simp only [List.length_cons]; omega))

theorem getBit_packFrom (rl ra : Nat) (source : List Byte) (n m i : Nat) (acc : Byte) (j : Nat)
    (him : i + m ≤ 8) (hj : j < 8) :
    getBit (packFrom rl ra source n m i acc) j =
      if i ≤ j ∧ j < i + m then lsbAt rl ra source (n + (j - i)) else getBit acc j := by
  induction m generalizing n i acc with
  | zero =>
    rw [packFrom, if_neg (by omega)]
  | succ m ih =>
    rw [packFrom, ih (n + 1) (i + 1) _ (by omega)]
    by_cases h1 : i + 1 ≤ j ∧ j < i + 1 + m
    · rw [if_pos h1, if_pos (by omega)]
      congr 1; omega
    · rw [if_neg h1, getBit_setBit _ i j _ (by omega) hj]
      by_cases hji : j = i
      · subst hji
        rw [if_pos rfl, if_pos (by omega)]
        simp
      · rw [if_neg hji, if_neg (by omega)]

theorem unpack_eq_of_lsb (rl ra : Nat) (source : List Byte) (src : List Byte) (n : Nat)
    (dst : List Byte) (hlen : dst.length = src.length)
    (h : ∀ k, k < 8 * src.length → some (lsbAt rl ra source (n + k)) = (bitsOfBytes src)[k]?) :
    unpack rl ra source n dst = src := by
  induction src generalizing n dst with
  | nil =>
    cases dst with
    | nil => rfl
    | cons d ds => simp at hlen
  | cons x xs ih =>
    cases dst with
    | nil => simp at hlen
    | cons d ds =>
      rw [unpack]
      congr 1
      · apply byte_ext
        intro j hj
        rw [getBit_packFrom rl ra source n 8 0 d j (by omega) hj, if_pos (by omega)]
        have := h j (by simp only [List.length_cons]; omega)
        rw [bitsOfBytes, List.getElem?_append_left (by rw [bitsFrom_length]; exact hj),
          bitsFrom_getElem? x 0 8 j hj] at this
        simpa using this
      · apply ih
        · simpa using hlen
        · intro k hk
          have := h (8 + k) (by simp only [List.length_cons]; omega)
          rw [bitsOfBytes, List.getElem?_append_right (by rw [bitsFrom_length]; omega),
            bitsFrom_length] at this
          rw [show n + 8 + k = n + (8 + k) by omega, this]
          congr 1; omega

theorem unpack_congr_lsb (rl ra : Nat) (s1 s2 : List Byte) (n : Nat) (dst1 dst2 : List Byte)
    (hlen : dst1.length = dst2.length)
    (h : ∀ k, k < 8 * dst1.length → lsbAt rl ra s1 (n + k) = lsbAt rl ra s2 (n + k)) :
    unpack rl ra s1 n dst1 = unpack rl ra s2 n dst2 := by
  induction dst1 generalizing n dst2 with
  | nil =>
    cases dst2 with
    | nil => rfl
    | cons d ds => simp at hlen
  | cons d1 ds1 ih =>
    cases dst2 with
    | nil => simp at hlen
    | cons d2 ds2 =>
      rw [unpack, unpack]
      congr 1
      · apply byte_ext
        intro j hj
        rw [getBit_packFrom rl ra s1 n 8 0 d1 j (by omega) hj, if_pos (by omega),
          getBit_packFrom rl ra s2 n 8 0 d2 j (by omega) hj, if_pos (by omega)]
        exact h (j - 0) (by simp only [List.length_cons]; omega)
      · apply ih
        · simpa using hlen
        · intro k hk
          have := h (8 + k) (by simp only [List.length_cons]; omega)
          rwa [show n + (8 + k) = n + 8 + k by omega] at this

theorem unpack_take (rl ra : Nat) (s : List Byte) (n : Nat) (dst : List Byte) (c : Nat) :
    (unpack rl ra s n dst).take c = unpack rl ra s n (dst.take c) := by
  induction dst generalizing n c with
  | nil => simp [unpack]
  | cons d ds ih =>
    cases c with
    | zero => simp [unpack]
    | succ c =>
      rw [unpack, List.take_succ_cons, List.take_succ_cons, unpack, ih]

theorem bitsOfBytes_unpack (rl ra : Nat) (s : List Byte) (n : Nat) (dst : List Byte) (k : Nat)
    (hk : k < 8 * dst.length) :
    (bitsOfBytes (unpack rl ra s n dst))[k]? = some (lsbAt rl ra s (n + k)) := by
  induction dst generalizing n k with
  | nil => simp at hk
  | cons d ds ih =>
    rw [unpack, bitsOfBytes]
    by_cases h8 : k < 8
    · rw [List.getElem?_append_left (by rw [bitsFrom_length]; exact h8),
        bitsFrom_getElem? _ 0 8 k h8, Nat.zero_add,
        getBit_packFrom rl ra s n 8 0 d k (by omega) h8, if_pos (by omega)]
      rfl
    · rw [List.getElem?_append_right (by rw [bitsFrom_length]; omega), bitsFrom_length,
        ih (n + 8) (k - 8) (by simp only [List.length_cons] at hk; omega)]
      congr 2
      omega

theorem uninit_length (junk : Nat → Byte) (n : Nat) : (uninit junk n).length = n := by
  simp [uninit]

theorem readData_eq (rl ra : Nat) (hra : 0 < ra) (hle : ra ≤ rl) (dst source : List Byte)
    (cnt : Nat) (hcnt : cnt ≤ dst.length) :
    readDataFromLeastSignificantBitPerRow dst source rl ra cnt =
      if ∀ k, k < 8 * cnt → offsetOf rl ra k < source.length then
        .ok (unpack rl ra source 0 (dst.take cnt))
      else .error .outOfBounds := by
  unfold readDataFromLeastSignificantBitPerRow
  rw [if_neg (by omega)]
  have := readLoop_eq rl ra hra hle source (dst.take cnt) 0
  rw [offsetOf_zero] at this
  rw [this]
  simp only [List.length_take, Nat.min_eq_left hcnt, Nat.zero_add]
  by_cases hc : ∀ k, k < 8 * cnt → offsetOf rl ra k < source.length
  · rw [if_pos hc, if_pos hc]
  · rw [if_neg hc, if_neg hc]

theorem readData_no_div (rl ra : Nat) (hra : 0 < ra) (hle : ra ≤ rl) (dst source : List Byte)
    (cnt : Nat) (hcnt : cnt ≤ dst.length) :
    readDataFromLeastSignificantBitPerRow dst source rl ra cnt ≠ .error .divisionByZero := by
  rw [readData_eq _ _ hra hle _ _ _ hcnt]
  split_ifs <;> simp

theorem lsb_agree (b1 b2 : List Byte) (o : Nat)
    (h : (b1[o]?).map (fun v : Byte => getBit v 0) = (b2[o]?).map (fun v : Byte => getBit v 0)) :
    (o < b1.length ↔ o < b2.length) ∧ getBit (b1.getD o 0) 0 = getBit (b2.getD o 0) 0 := by
  rw [List.getD_eq_getElem?_getD, List.getD_eq_getElem?_getD]
  by_cases h1 : o < b1.length <;> by_cases h2 : o < b2.length
  · rw [List.getElem?_eq_getElem h1, List.getElem?_eq_getElem h2] at h ⊢
    simp only [Option.map_some', Option.some.injEq] at h
    exact ⟨⟨fun _ => h2, fun _ => h1⟩, h⟩
  · rw [List.getElem?_eq_getElem h1, List.getElem?_eq_none (by omega)] at h
    simp at h
  · rw [List.getElem?_eq_none (by omega), List.getElem?_eq_getElem h2] at h
    simp at h
  · rw [List.getElem?_eq_none (by omega), List.getElem?_eq_none (by omega)]
    exact ⟨⟨fun h => absurd h h1, fun h => absurd h h2⟩, rfl⟩

/-- Two reads return the same when the sources agree on the least-significant bits
of the available bytes read. -/
theorem readData_congr (rl ra : Nat) (hra : 0 < ra) (hle : ra ≤ rl)
    (b1 b2 dst1 dst2 : List Byte) (cnt : Nat) (h1 : cnt ≤ dst1.length) (h2 : cnt ≤ dst2.length)
    (hag : ∀ k, k < 8 * cnt →
      (b1[offsetOf rl ra k]?).map (fun v : Byte => getBit v 0)
        = (b2[offsetOf rl ra k]?).map (fun v : Byte => getBit v 0)) :
    readDataFromLeastSignificantBitPerRow dst1 b1 rl ra cnt
      = readDataFromLeastSignificantBitPerRow dst2 b2 rl ra cnt := by
  rw [readData_eq _ _ hra hle _ _ _ h1, readData_eq _ _ hra hle _ _ _ h2]
  have hiff : (∀ k, k < 8 * cnt → offsetOf rl ra k < b1.length)
      ↔ (∀ k, k < 8 * cnt → offsetOf rl ra k < b2.length) :=
    ⟨fun h k hk => (lsb_agree _ _ _ (hag k hk)).1.1 (h k hk),
      fun h k hk => (lsb_agree _ _ _ (hag k hk)).1.2 (h k hk)⟩
  by_cases hc : ∀ k, k < 8 * cnt → offsetOf rl ra k < b1.length
  · rw [if_pos hc, if_pos (hiff.1 hc)]
    congr 1
    apply unpack_congr_lsb
    · rw [List.length_take, List.length_take, Nat.min_eq_left h1, Nat.min_eq_left h2]
    · intro k hk
      rw [List.length_take, Nat.min_eq_left h1] at hk
      rw [Nat.zero_add]
      exact (lsb_agree _ _ _ (hag k hk)).2
  · rw [if_neg hc, if_neg (fun h => hc (hiff.2 h))]

/-! ## `readBitmap` and the geometry of the pixel buffer -/

theorem byteAt_lt (file : List Byte) (i : Nat) : byteAt file i < 256 := (file.getD i 0).isLt

theorem le16_lt (file : List Byte) (off : Nat) : le16 file off < 65536 := by
  have h0 := byteAt_lt file off
  have h1 := byteAt_lt file (off + 1)
  unfold le16; omega

theorem le32_lt (file : List Byte) (off : Nat) : le32 file off < 4294967296 := by
  have h0 := byteAt_lt file off
  have h1 := byteAt_lt file (off + 1)
  have h2 := byteAt_lt file (off + 2)
  have h3 := byteAt_lt file (off + 3)
  unfold le32; omega

theorem le32_le32Bytes (n : Nat) (hn : n < 4294967296) : le32 (le32Bytes n) 0 = n := by
  simp only [le32, le32Bytes, byteAt, toByte, List.getD_cons_zero, List.getD_cons_succ]
  omega

theorem le32Bytes_le32 (l : List Byte) (hl : l.length = 4) : le32Bytes (le32 l 0) = l := by
  match l, hl with
  | [a, b, c, d], _ =>
    have ha := a.isLt
    have hb := b.isLt
    have hc := c.isLt
    have hd := d.isLt
    simp only [le32, le32Bytes, byteAt, toByte, List.getD_cons_zero, List.getD_cons_succ,
      List.cons.injEq, and_true]
    refine ⟨Fin.ext ?_, Fin.ext ?_, Fin.ext ?_, Fin.ext ?_⟩ <;> simp only [] <;> omega

theorem le32Bytes_length (n : Nat) : (le32Bytes n).length = 4 := rfl

theorem frame_length (P : List Byte) : (le32Bytes P.length ++ P).length = P.length + 4 := by
  rw [List.length_append, le32Bytes_length, Nat.add_comm]

theorem align_four (x : Nat) (hx : x + 3 < SIZE) : align x 4 = (x + 3) / 4 * 4 := by
  unfold align SIZE at *
  omega

/-- What a successful `readBitmap` establishes. -/
theorem readBitmap_ok {file : List Byte} {bmp : Bitmap} (h : readBitmap file = .ok bmp) :
    sizeofBitmapHeader ≤ file.length ∧
    bmp.rowAvailableLength = hdrWidth file * 3 ∧
    bmp.rowLength = (hdrWidth file * 3 + 3) / 4 * 4 ∧
    bmp.dataLength = (bmp.rowLength * hdrHeight file) % SIZE ∧
    bmp.availableLength = (bmp.rowAvailableLength * hdrHeight file) % SIZE ∧
    hdrDataOffset file + bmp.dataLength ≤ file.length ∧
    bmp.data = (file.drop (hdrDataOffset file)).take bmp.dataLength ∧
    bmp.data.length = bmp.dataLength := by
  have hw : hdrWidth file < 4294967296 := le32_lt file 18
  have hh : hdrHeight file < 4294967296 := le32_lt file 22
  have ho : hdrDataOffset file < 4294967296 := le32_lt file 10
  have hra : (hdrWidth file * 3) % SIZE = hdrWidth file * 3 :=
    Nat.mod_eq_of_lt (by unfold SIZE; omega)
  have hrl : align (hdrWidth file * 3) 4 = (hdrWidth file * 3 + 3) / 4 * 4 :=
    align_four _ (by unfold SIZE; omega)
  have hav : ((hdrWidth file * hdrHeight file) % SIZE * 3) % SIZE
      = (hdrWidth file * 3 * hdrHeight file) % SIZE := by
    rw [Nat.mod_mul_mod]; congr 1; ring
  unfold readBitmap at h
  simp only [hra, hrl, hav] at h
  split_ifs at h with h1 h2 h3 h4 h5 h6 h7 h8
  simp only [Except.ok.injEq] at h
  subst h
  simp only [not_lt, not_not, gt_iff_lt] at h1 h7 h8
  refine ⟨h1, rfl, rfl, rfl, rfl, ?_, rfl, h8⟩
  simp only [List.length_take, List.length_drop] at h8
  show hdrDataOffset file + ((hdrWidth file * 3 + 3) / 4 * 4 * hdrHeight file) % SIZE ≤ _
  generalize ((hdrWidth file * 3 + 3) / 4 * 4 * hdrHeight file) % SIZE = dl at h7 h8 ⊢
  by_cases hz : dl = 0
  · subst hz
    rw [Nat.add_zero, Nat.mod_eq_of_lt (by unfold SIZE; omega)] at h7
    omega
  · omega

/-- When `readBitmap` succeeds, and with what result. -/
theorem readBitmap_ok_iff (file : List Byte) (bmp : Bitmap) :
    readBitmap file = .ok bmp ↔
      ¬ file.length < sizeofBitmapHeader ∧ (byteAt file 0 = 0x42 ∧ byteAt file 1 = 0x4d) ∧
      (le16 file 6 = 0 ∧ le16 file 8 = 0) ∧ le16 file 26 = 1 ∧ le16 file 28 = 24 ∧
      le32 file 30 = 0 ∧
      ¬ (le32 file 10 + (align ((le32 file 18 * 3) % SIZE) 4 * le32 file 22) % SIZE) % SIZE
          > file.length ∧
      ((file.drop (le32 file 10)).take
          ((align ((le32 file 18 * 3) % SIZE) 4 * le32 file 22) % SIZE)).length
        = (align ((le32 file 18 * 3) % SIZE) 4 * le32 file 22) % SIZE ∧
      bmp = { data := (file.drop (le32 file 10)).take
                ((align ((le32 file 18 * 3) % SIZE) 4 * le32 file 22) % SIZE)
              dataLength := (align ((le32 file 18 * 3) % SIZE) 4 * le32 file 22) % SIZE
              availableLength := ((le32 file 18 * le32 file 22) % SIZE * 3) % SIZE
              rowLength := align ((le32 file 18 * 3) % SIZE) 4
              rowAvailableLength := (le32 file 18 * 3) % SIZE } := by
  unfold readBitmap hdrPlanes hdrBitCountPerPixel hdrCompression hdrWidth hdrHeight hdrDataOffset
  simp only []
  constructor
  · intro h
    split_ifs at h with h1 h2 h3 h4 h5 h6 h7 h8
    simp only [Except.ok.injEq] at h
    exact ⟨h1, h2, h3, not_not.1 h4, not_not.1 h5, not_not.1 h6, h7, not_not.1 h8, h.symm⟩
  · rintro ⟨h1, h2, h3, h4, h5, h6, h7, h8, h9⟩
    rw [if_neg h1, if_neg (not_not.2 h2), if_neg (not_not.2 h3), if_neg (not_not.2 h4),
      if_neg (not_not.2 h5), if_neg (not_not.2 h6), if_neg h7, if_neg (not_not.2 h8), h9]

/-- The geometry facts about the rows that follow from `readBitmap_ok`. -/
theorem row_geometry {file : List Byte} {bmp : Bitmap} (h : readBitmap file = .ok bmp) :
    bmp.rowAvailableLength ≤ bmp.rowLength ∧ bmp.rowLength ≤ bmp.rowAvailableLength + 3 ∧
    bmp.rowLength % 4 = 0 := by
  obtain ⟨_, h2, h3, _⟩ := readBitmap_ok h
  rw [h2, h3]
  omega

theorem rowAvailable_pos {file : List Byte} {bmp : Bitmap} (h : readBitmap file = .ok bmp)
    (hpos : 0 < bmp.availableLength) : 0 < bmp.rowAvailableLength := by
  obtain ⟨_, _, _, _, hA, _⟩ := readBitmap_ok h
  rcases Nat.eq_zero_or_pos bmp.rowAvailableLength with h0 | h0
  · rw [h0] at hA; simp at hA; omega
  · exact h0

/-- Every available byte below `availableLength` lies inside the pixel buffer as
soon as `availableLength ≤ dataLength`. -/
theorem offsetOf_lt_dataLength {file : List Byte} {bmp : Bitmap} (h : readBitmap file = .ok bmp)
    (hfit : bmp.availableLength ≤ bmp.dataLength) (n : Nat) (hn : n < bmp.availableLength) :
    offsetOf bmp.rowLength bmp.rowAvailableLength n < bmp.data.length := by
  obtain ⟨hle, hle3, _⟩ := row_geometry h
  obtain ⟨_, _, _, hD, hA, _, _, hlen⟩ := readBitmap_ok h
  have hh : hdrHeight file < 4294967296 := le32_lt file 22
  rw [hlen]
  generalize bmp.rowLength = rl at *
  generalize bmp.rowAvailableLength = ra at *
  generalize bmp.dataLength = D at *
  generalize bmp.availableLength = A at *
  generalize hdrHeight file = ht at *
  have hra : 0 < ra := by
    rcases Nat.eq_zero_or_pos ra with h0 | h0
    · subst h0; simp at hA; omega
    · exact h0
  have hsplit : rl * ht = ra * ht + (rl - ra) * ht := by
    rw [← Nat.add_mul]; congr 1; omega
  have hY : (rl - ra) * ht ≤ 3 * ht := Nat.mul_le_mul_right ht (by omega)
  have hAX : A ≤ ra * ht := by rw [hA]; exact Nat.mod_le _ _
  have hq : n / ra < ht := Nat.div_lt_of_lt_mul (lt_of_lt_of_le hn hAX)
  have hq2 : n / ra * (rl - ra) ≤ (rl - ra) * ht := by
    rw [Nat.mul_comm]; exact Nat.mul_le_mul_left _ (le_of_lt hq)
  rw [offsetOf_eq_add rl ra n hle]
  rw [hsplit] at hD
  generalize (rl - ra) * ht = Y at *
  generalize ra * ht = X at *
  unfold SIZE at hD hA
  omega

/-- There is no wrap-around when the header's pixel-data size fits `size_t`. -/
theorem avail_le_data_of_noOverflow {file : List Byte} {bmp : Bitmap}
    (h : readBitmap file = .ok bmp) (hno : bmp.rowLength * hdrHeight file < SIZE) :
    bmp.availableLength ≤ bmp.dataLength := by
  obtain ⟨hle, _, _⟩ := row_geometry h
  obtain ⟨_, _, _, hD, hA, _⟩ := readBitmap_ok h
  have hm : bmp.rowAvailableLength * hdrHeight file ≤ bmp.rowLength * hdrHeight file :=
    Nat.mul_le_mul_right _ hle
  rw [hD, hA, Nat.mod_eq_of_lt hno, Nat.mod_eq_of_lt (lt_of_le_of_lt hm hno)]
  exact hm

/-- There is no wrap-around when `availableLength` is far from the top of `size_t`. -/
theorem avail_le_data_of_small {file : List Byte} {bmp : Bitmap}
    (h : readBitmap file = .ok bmp) (hs : bmp.availableLength < 2 ^ 63) :
    bmp.availableLength ≤ bmp.dataLength := by
  obtain ⟨hle, hle3, _⟩ := row_geometry h
  obtain ⟨_, _, _, hD, hA, _⟩ := readBitmap_ok h
  have hh : hdrHeight file < 4294967296 := le32_lt file 22
  generalize bmp.rowLength = rl at *
  generalize bmp.rowAvailableLength = ra at *
  generalize bmp.dataLength = D at *
  generalize bmp.availableLength = A at *
  generalize hdrHeight file = ht at *
  have hsplit : rl * ht = ra * ht + (rl - ra) * ht := by
    rw [← Nat.add_mul]; congr 1; omega
  have hY : (rl - ra) * ht ≤ 3 * ht := Nat.mul_le_mul_right ht (by omega)
  rw [hsplit] at hD
  generalize (rl - ra) * ht = Y at *
  generalize ra * ht = X at *
  unfold SIZE at hD hA
  norm_num at hs
  omega

/-! ## `writeBitmapFileWithNewData`: the splice -/

theorem writeBitmap_eq (file data' : List Byte) (dl : Nat)
    (h1 : hdrDataOffset file + dl ≤ file.length) (h2 : data'.length = dl) :
    writeBitmapFileWithNewData file data' dl =
      .ok (file.take (hdrDataOffset file) ++ data' ++ file.drop (hdrDataOffset file + dl)) := by
  unfold writeBitmapFileWithNewData
  simp only []
  rw [if_neg (by omega), ← h2, List.take_length]

theorem splice_length (file data' : List Byte) (off dl : Nat)
    (h1 : off + dl ≤ file.length) (h2 : data'.length = dl) :
    (file.take off ++ data' ++ file.drop (off + dl)).length = file.length := by
  simp only [List.length_append, List.length_take, List.length_drop]
  omega

theorem splice_getElem?_lt (file data' : List Byte) (off dl i : Nat)
    (h1 : off + dl ≤ file.length) (hi : i < off) :
    (file.take off ++ data' ++ file.drop (off + dl))[i]? = file[i]? := by
  rw [List.append_assoc, List.getElem?_append_left (by rw [List.length_take]; omega),
    List.getElem?_take_of_lt hi]

theorem splice_getElem?_ge (file data' : List Byte) (off dl i : Nat)
    (h1 : off + dl ≤ file.length) (h2 : data'.length = dl) (hi : off + dl ≤ i) :
    (file.take off ++ data' ++ file.drop (off + dl))[i]? = file[i]? := by
  rw [List.getElem?_append_right (by simp only [List.length_append, List.length_take]; omega)]
  simp only [List.length_append, List.length_take, List.getElem?_drop, h2]
  congr 1
  omega

theorem splice_slice (file data' : List Byte) (off dl : Nat)
    (h1 : off + dl ≤ file.length) (h2 : data'.length = dl) :
    ((file.take off ++ data' ++ file.drop (off + dl)).drop off).take dl = data' := by
  have hl : (file.take off).length = off := by rw [List.length_take]; omega
  rw [List.append_assoc, List.drop_left' hl, List.take_left' h2]

theorem splice_self (file : List Byte) (off dl : Nat) :
    file.take off ++ (file.drop off).take dl ++ file.drop (off + dl) = file := by
  rw [← List.drop_drop, List.append_assoc, List.take_append_drop, List.take_append_drop]

theorem byteAt_splice (file data' : List Byte) (off dl i : Nat)
    (h1 : off + dl ≤ file.length) (hi : i < off) :
    byteAt (file.take off ++ data' ++ file.drop (off + dl)) i = byteAt file i := by
  unfold byteAt
  rw [List.getD_eq_getElem?_getD, List.getD_eq_getElem?_getD,
    splice_getElem?_lt file data' off dl i h1 hi]

/-- Re-reading a bitmap whose pixel data (lying behind the header) has been
replaced by a buffer of the same length gives the same geometry and that buffer. -/
theorem readBitmap_splice {file : List Byte} {bmp : Bitmap} (h : readBitmap file = .ok bmp)
    (data' : List Byte) (hlen : data'.length = bmp.dataLength)
    (hoff : sizeofBitmapHeader ≤ hdrDataOffset file) :
    readBitmap (file.take (hdrDataOffset file) ++ data'
        ++ file.drop (hdrDataOffset file + bmp.dataLength))
      = .ok { bmp with data := data' } := by
  obtain ⟨_, _, _, _, _, hsz, _, _⟩ := readBitmap_ok h
  unfold sizeofBitmapHeader at hoff
  have eb : ∀ i, i < 54 → byteAt (file.take (hdrDataOffset file) ++ data'
      ++ file.drop (hdrDataOffset file + bmp.dataLength)) i = byteAt file i :=
    fun i hi => byteAt_splice file data' _ _ i hsz (by omega)
  have el := splice_length file data' _ _ hsz hlen
  have es := splice_slice file data' _ _ hsz hlen
  generalize file.take (hdrDataOffset file) ++ data'
      ++ file.drop (hdrDataOffset file + bmp.dataLength) = out at eb el es
  have e16 : ∀ o, o + 1 < 54 → le16 out o = le16 file o := by
    intro o ho
    unfold le16
    rw [eb o (by omega), eb (o + 1) (by omega)]
  have e32 : ∀ o, o + 3 < 54 → le32 out o = le32 file o := by
    intro o ho
    unfold le32
    rw [eb o (by omega), eb (o + 1) (by omega), eb (o + 2) (by omega), eb (o + 3) (by omega)]
  obtain ⟨h1, h2, h3, h4, h5, h6, h7, h8, h9⟩ := (readBitmap_ok_iff file bmp).1 h
  have hD : bmp.dataLength = (align ((le32 file 18 * 3) % SIZE) 4 * le32 file 22) % SIZE := by
    rw [h9]
  unfold hdrDataOffset at es
  rw [hD] at es hlen
  rw [readBitmap_ok_iff, el, eb 0 (by omega), eb 1 (by omega), e16 6 (by omega),
    e16 8 (by omega), e16 26 (by omega), e16 28 (by omega), e32 30 (by omega),
    e32 18 (by omega), e32 22 (by omega), e32 10 (by omega), es]
  refine ⟨h1, h2, h3, h4, h5, h6, h7, hlen, ?_⟩
  rw [h9]

/-! ## The two branches of `main` -/

/-- The write branch on a payload whose length fits 32 bits. -/
theorem embedData_cases {file : List Byte} {bmp : Bitmap} (h : readBitmap file = .ok bmp)
    (P : List Byte) (hP : P.length < U32) :
    embedData bmp P =
      if bmp.availableLength < (P.length + 4) * 8 then .error .insufficientCapacity
      else if U32 ≤ P.length + 4 then .error .outOfBounds
      else if ∀ k, k < 8 * (P.length + 4) →
          offsetOf bmp.rowLength bmp.rowAvailableLength k < bmp.data.length then
        .ok (putBits bmp.rowLength bmp.rowAvailableLength
          (bitsOfBytes (le32Bytes P.length ++ P)) 0 bmp.data)
      else .error .outOfBounds := by
  unfold U32 at hP
  have e1 : (P.length + sizeofU32) % SIZE = P.length + 4 := by
    unfold sizeofU32 SIZE; omega
  have e2 : ((P.length + 4) * 8) % SIZE = (P.length + 4) * 8 := by
    unfold SIZE; omega
  have e3 : P.length % U32 = P.length := by unfold U32; omega
  unfold embedData
  simp only [e1, e2, e3, gt_iff_lt]
  by_cases hc : bmp.availableLength < (P.length + 4) * 8
  · simp only [if_pos hc]
  · simp only [if_neg hc]
    have e4 : (sizeofU32 + P.length) % U32 < sizeofU32 + P.length ↔ U32 ≤ P.length + 4 := by
      unfold sizeofU32 U32; omega
    simp only [e4]
    by_cases hw : U32 ≤ P.length + 4
    · simp only [if_pos hw]
    · simp only [if_neg hw]
      have e5 : (sizeofU32 + P.length) % U32 = P.length + 4 := by
        unfold sizeofU32 U32 at *; omega
      have hra : 0 < bmp.rowAvailableLength := rowAvailable_pos h (by omega)
      have hle := (row_geometry h).1
      have hlen : (le32Bytes P.length ++ P).length = P.length + 4 := by
        simp [le32Bytes]
      rw [e5, List.take_length, writeData_eq _ _ hra hle _ _ _ (by omega)]
      have e6 : (le32Bytes P.length ++ P).take (P.length + 4) = le32Bytes P.length ++ P := by
        rw [← hlen, List.take_length]
      rw [e6]

/-- The embed path succeeds on a bitmap whose available bytes all lie inside the
pixel buffer, for a payload within capacity whose frame length fits 32 bits. -/
theorem embedData_ok {file : List Byte} {bmp : Bitmap} (hacc : readBitmap file = .ok bmp)
    (hfit : bmp.availableLength ≤ bmp.dataLength) (P : List Byte) (hP : P.length + 4 < U32)
    (hcap : (P.length + 4) * 8 ≤ bmp.availableLength) :
    embedData bmp P = .ok (putBits bmp.rowLength bmp.rowAvailableLength
      (bitsOfBytes (le32Bytes P.length ++ P)) 0 bmp.data) := by
  rw [embedData_cases hacc P (by omega), if_neg (by omega), if_neg (by omega), if_pos]
  intro k hk
  exact offsetOf_lt_dataLength hacc hfit k (by omega)

theorem embedData_length (bmp : Bitmap) (P data' : List Byte)
    (h : embedData bmp P = .ok data') : data'.length = bmp.data.length := by
  unfold embedData at h
  simp only [] at h
  split_ifs at h
  exact writeData_length _ _ _ _ _ _ h

/-- The write branch never divides by zero: with `rowLength = 0` the capacity is 0,
and a run that passes the capacity check then fails to build its frame. -/
theorem embedData_no_div {file : List Byte} {bmp : Bitmap} (hacc : readBitmap file = .ok bmp)
    (P : List Byte) : embedData bmp P ≠ .error .divisionByZero := by
  obtain ⟨_, _, _, _, hA, _⟩ := readBitmap_ok hacc
  have hle := (row_geometry hacc).1
  unfold embedData
  simp only []
  split_ifs with h1 h2
  · simp
  · simp
  · rcases Nat.eq_zero_or_pos bmp.rowAvailableLength with h0 | hra
    · exfalso
      rw [h0, Nat.zero_mul, Nat.zero_mod] at hA
      rw [hA] at h1
      have := Nat.mod_lt (sizeofU32 + P.length % U32) (show 0 < U32 by decide)
      unfold sizeofU32 U32 SIZE at *
      omega
    · have hlen : (sizeofU32 + P.length % U32) % U32
          ≤ (le32Bytes (P.length % U32) ++ List.take (P.length % U32) P).length := by
        have := Nat.mod_le P.length U32
        have := Nat.mod_le (sizeofU32 + P.length % U32) U32
        rw [List.length_append, le32Bytes_length, List.length_take]
        unfold sizeofU32 at *
        omega
      rw [writeData_eq _ _ hra hle _ _ _ hlen]
      split_ifs <;> simp

/-- The run `main -w` succeeds exactly when its write branch does, and splices
the modified pixel buffer into the input file. -/
theorem embed_eq_of_embedData {file : List Byte} {bmp : Bitmap} (hacc : readBitmap file = .ok bmp)
    (P data' : List Byte) (hemb : embedData bmp P = .ok data')
    (hlen : data'.length = bmp.dataLength) :
    embed file P = .ok (file.take (hdrDataOffset file) ++ data'
      ++ file.drop (hdrDataOffset file + bmp.dataLength)) := by
  obtain ⟨_, _, _, _, _, hsz, _, _⟩ := readBitmap_ok hacc
  unfold embed
  rw [hacc]
  simp only []
  rw [hemb]
  simp only []
  exact writeBitmap_eq file data' _ hsz hlen

theorem embed_of_embedData_error {file : List Byte} {bmp : Bitmap}
    (hacc : readBitmap file = .ok bmp) (P : List Byte) (e : Error)
    (h : embedData bmp P = .error e) : embed file P = .error e := by
  unfold embed
  rw [hacc]
  simp only []
  rw [h]

/-- A successful run of `main -w` is a successful write branch followed by the
splice of its pixel buffer into the input file. -/
theorem embed_ok_inv {file : List Byte} {bmp : Bitmap} (hacc : readBitmap file = .ok bmp)
    (P out : List Byte) (hemb : embed file P = .ok out) :
    ∃ data', embedData bmp P = .ok data' ∧ data'.length = bmp.dataLength ∧
      out = file.take (hdrDataOffset file) ++ data'
        ++ file.drop (hdrDataOffset file + bmp.dataLength) := by
  cases hE : embedData bmp P with
  | error e =>
    unfold embed at hemb
    rw [hacc] at hemb
    simp only [] at hemb
    rw [hE] at hemb
    cases hemb
  | ok data' =>
    have hlen : data'.length = bmp.dataLength := by
      rw [embedData_length bmp P data' hE]; exact (readBitmap_ok hacc).2.2.2.2.2.2.2
    have := embed_eq_of_embedData hacc P data' hE hlen
    rw [this] at hemb
    injection hemb with hemb
    exact ⟨data', rfl, hlen, hemb.symm⟩

/-- The run `main -w` on an accepted bitmap and a payload whose length fits 32 bits. -/
theorem embed_cases {file : List Byte} {bmp : Bitmap} (hacc : readBitmap file = .ok bmp)
    (P : List Byte) (hP : P.length < U32) :
    embed file P =
      if bmp.availableLength < (P.length + 4) * 8 then .error .insufficientCapacity
      else if U32 ≤ P.length + 4 then .error .outOfBounds
      else if ∀ k, k < 8 * (P.length + 4) →
          offsetOf bmp.rowLength bmp.rowAvailableLength k < bmp.data.length then
        .ok (file.take (hdrDataOffset file)
          ++ putBits bmp.rowLength bmp.rowAvailableLength
            (bitsOfBytes (le32Bytes P.length ++ P)) 0 bmp.data
          ++ file.drop (hdrDataOffset file + bmp.dataLength))
      else .error .outOfBounds := by
  have hc := embedData_cases hacc P hP
  by_cases h1 : bmp.availableLength < (P.length + 4) * 8
  · rw [if_pos h1] at hc ⊢
    unfold embed
    rw [hacc]; simp only []; rw [hc]
  · rw [if_neg h1] at hc ⊢
    by_cases h2 : U32 ≤ P.length + 4
    · rw [if_pos h2] at hc ⊢
      unfold embed
      rw [hacc]; simp only []; rw [hc]
    · rw [if_neg h2] at hc ⊢
      by_cases h3 : ∀ k, k < 8 * (P.length + 4) →
          offsetOf bmp.rowLength bmp.rowAvailableLength k < bmp.data.length
      · rw [if_pos h3] at hc ⊢
        exact embed_eq_of_embedData hacc P _ hc
          (by rw [putBits_length]; exact (readBitmap_ok hacc).2.2.2.2.2.2.2)
      · rw [if_neg h3] at hc ⊢
        unfold embed
        rw [hacc]; simp only []; rw [hc]

/-- The run `main -w` ends with a capacity error only through its capacity check. -/
theorem embed_capacity_error {file : List Byte} {bmp : Bitmap} (hacc : readBitmap file = .ok bmp)
    (P : List Byte) (e : Error) (he : embed file P = .error e)
    (hk : e.isCapacityError = true) :
    ((P.length + sizeofU32) % SIZE * 8) % SIZE > bmp.availableLength := by
  by_contra hn
  unfold embed at he
  rw [hacc] at he
  simp only [] at he
  cases hE : embedData bmp P with
  | error e' =>
    rw [hE] at he
    injection he with he
    subst he
    unfold embedData at hE
    simp only [] at hE
    rw [if_neg hn] at hE
    split_ifs at hE
    · injection hE with hE
      rw [← hE] at hk
      cases hk
    · rw [writeData_error _ _ _ _ _ _ hE] at hk
      cases hk
  | ok data' =>
    rw [hE] at he
    simp only [] at he
    unfold writeBitmapFileWithNewData at he
    simp only [] at he
    split_ifs at he
    injection he with he
    rw [← he] at hk
    cases hk

theorem embed_capacity_fail {file : List Byte} {bmp : Bitmap} (hacc : readBitmap file = .ok bmp)
    (P : List Byte)
    (h : ((P.length + sizeofU32) % SIZE * 8) % SIZE > bmp.availableLength) :
    embed file P = .error .insufficientCapacity := by
  unfold embed
  rw [hacc]
  simp only []
  unfold embedData
  simp only []
  rw [if_pos h]

theorem embed_no_div {file : List Byte} {bmp : Bitmap} (hacc : readBitmap file = .ok bmp)
    (P : List Byte) : embed file P ≠ .error .divisionByZero := by
  have h1 := embedData_no_div hacc P
  unfold embed
  rw [hacc]
  simp only []
  cases hE : embedData bmp P with
  | error e =>
    rw [hE] at h1
    simpa using h1
  | ok data' =>
    simp only []
    unfold writeBitmapFileWithNewData
    simp only []
    split_ifs <;> simp

/-- The read branch on a bitmap with at least 32 available bytes, all inside
the pixel buffer. -/
theorem extractData_cases {file : List Byte} {bmp : Bitmap} (h : readBitmap file = .ok bmp)
    (junk : Nat → Byte) (h32 : 32 ≤ bmp.availableLength)
    (hfit : bmp.availableLength ≤ bmp.dataLength) :
    extractData junk bmp =
      if bmp.availableLength <
          (le32 (unpack bmp.rowLength bmp.rowAvailableLength bmp.data 0 (uninit junk 4)) 0 + 4) * 8
      then .error .bitmapTooSmallOrNoData
      else if U32 ≤
          le32 (unpack bmp.rowLength bmp.rowAvailableLength bmp.data 0 (uninit junk 4)) 0 + 4
      then .error .outOfBounds
      else .ok (((unpack bmp.rowLength bmp.rowAvailableLength bmp.data 0
          (uninit junk (4 + le32 (unpack bmp.rowLength bmp.rowAvailableLength bmp.data 0
            (uninit junk 4)) 0))).drop 4).take
          (le32 (unpack bmp.rowLength bmp.rowAvailableLength bmp.data 0 (uninit junk 4)) 0)) := by
  have hra : 0 < bmp.rowAvailableLength := rowAvailable_pos h (by omega)
  have hle := (row_geometry h).1
  have hin : ∀ c, 8 * c ≤ bmp.availableLength → ∀ k, k < 8 * c →
      offsetOf bmp.rowLength bmp.rowAvailableLength k < bmp.data.length :=
    fun c hc k hk => offsetOf_lt_dataLength h hfit k (by omega)
  unfold extractData
  rw [if_neg (by unfold sizeofU32; omega)]
  rw [readData_eq _ _ hra hle _ _ _ (by rw [uninit_length]), if_pos (hin _ (by unfold sizeofU32; omega))]
  simp only []
  have e0 : (uninit junk sizeofU32).take sizeofU32 = uninit junk 4 :=
    List.take_of_length_le (by rw [uninit_length])
  rw [e0]
  generalize hd : le32 (unpack bmp.rowLength bmp.rowAvailableLength bmp.data 0 (uninit junk 4)) 0 = d
  have hdlt : d < 4294967296 := by rw [← hd]; exact le32_lt _ _
  have e1 : ((d + sizeofU32) % SIZE * 8) % SIZE = (d + 4) * 8 := by
    unfold sizeofU32 SIZE; omega
  rw [e1]
  by_cases hc : bmp.availableLength < (d + 4) * 8
  · rw [if_pos hc, if_pos hc]
  · rw [if_neg hc, if_neg hc]
    rw [readData_eq _ _ hra hle _ _ _ (by rw [uninit_length])]
    rw [if_pos (hin _ (by unfold sizeofU32 U32; omega))]
    simp only []
    rw [unpack_length, List.length_take, uninit_length, Nat.min_self]
    by_cases hw : U32 ≤ d + 4
    · rw [if_pos hw, if_pos (by unfold sizeofU32 U32 at *; omega)]
    · have e4 : (sizeofU32 + d) % U32 = 4 + d := by
        unfold sizeofU32 U32 at *; omega
      rw [if_neg hw, e4, if_neg (by unfold sizeofU32; omega)]
      have e5 : (uninit junk (4 + d)).take (4 + d) = uninit junk (4 + d) := by
        rw [List.take_of_length_le (by rw [uninit_length])]
      rw [e5]
      rfl

/-- What a successful read branch has done. -/
theorem extractData_ok_inv {file : List Byte} {bmp : Bitmap} (hacc : readBitmap file = .ok bmp)
    (junk : Nat → Byte) (P : List Byte) (h : extractData junk bmp = .ok P) :
    0 < bmp.rowAvailableLength ∧
    (le32 (unpack bmp.rowLength bmp.rowAvailableLength bmp.data 0 (uninit junk 4)) 0 + 4) * 8
      ≤ bmp.availableLength ∧
    le32 (unpack bmp.rowLength bmp.rowAvailableLength bmp.data 0 (uninit junk 4)) 0 + 4 < U32 ∧
    (∀ k, k < 8 * (le32 (unpack bmp.rowLength bmp.rowAvailableLength bmp.data 0
        (uninit junk 4)) 0 + 4) →
      offsetOf bmp.rowLength bmp.rowAvailableLength k < bmp.data.length) ∧
    P = ((unpack bmp.rowLength bmp.rowAvailableLength bmp.data 0
        (uninit junk (4 + le32 (unpack bmp.rowLength bmp.rowAvailableLength bmp.data 0
          (uninit junk 4)) 0))).drop 4).take
        (le32 (unpack bmp.rowLength bmp.rowAvailableLength bmp.data 0 (uninit junk 4)) 0) := by
  unfold extractData at h
  by_cases hA : bmp.availableLength < sizeofU32
  · rw [if_pos hA] at h; cases h
  rw [if_neg hA] at h
  have hra : 0 < bmp.rowAvailableLength :=
    rowAvailable_pos hacc (by unfold sizeofU32 at hA; omega)
  have hle := (row_geometry hacc).1
  rw [readData_eq _ _ hra hle _ _ _ (by rw [uninit_length])] at h
  by_cases h1 : ∀ k, k < 8 * sizeofU32 →
      offsetOf bmp.rowLength bmp.rowAvailableLength k < bmp.data.length
  swap
  · rw [if_neg h1] at h; cases h
  rw [if_pos h1] at h
  simp only [] at h
  have e0 : (uninit junk sizeofU32).take sizeofU32 = uninit junk 4 :=
    List.take_of_length_le (by rw [uninit_length])
  rw [e0] at h
  generalize hd : le32 (unpack bmp.rowLength bmp.rowAvailableLength bmp.data 0 (uninit junk 4)) 0
    = d at h ⊢
  have hdlt : d < 4294967296 := by rw [← hd]; exact le32_lt _ _
  have e1 : ((d + sizeofU32) % SIZE * 8) % SIZE = (d + 4) * 8 := by
    unfold sizeofU32 SIZE; omega
  rw [e1] at h
  by_cases hc : bmp.availableLength < (d + 4) * 8
  · rw [if_pos hc] at h; cases h
  rw [if_neg hc] at h
  rw [readData_eq _ _ hra hle _ _ _ (by rw [uninit_length])] at h
  by_cases h2 : ∀ k, k < 8 * ((sizeofU32 + d) % U32) →
      offsetOf bmp.rowLength bmp.rowAvailableLength k < bmp.data.length
  swap
  · rw [if_neg h2] at h; cases h
  rw [if_pos h2] at h
  simp only [] at h
  rw [unpack_length, List.length_take, uninit_length, Nat.min_self] at h
  by_cases hw : (sizeofU32 + d) % U32 < sizeofU32 + d
  · rw [if_pos hw] at h; cases h
  rw [if_neg hw] at h
  have e4 : (sizeofU32 + d) % U32 = 4 + d := by
    have := Nat.mod_le (sizeofU32 + d) U32
    unfold sizeofU32 at *
    omega
  have hlt : d + 4 < U32 := by
    have := Nat.mod_lt (sizeofU32 + d) (show 0 < U32 by decide)
    rw [e4] at this
    omega
  rw [e4] at h h2
  have e5 : (uninit junk (4 + d)).take (4 + d) = uninit junk (4 + d) :=
    List.take_of_length_le (by rw [uninit_length])
  rw [e5] at h
  injection h with h
  refine ⟨hra, by omega, hlt, fun k hk => h2 k (by omega), h.symm⟩

/-- Extraction from a pixel buffer into which a frame has been written returns
the payload of the frame. -/
theorem extractData_putBits {file : List Byte} {bmp : Bitmap} (hacc : readBitmap file = .ok bmp)
    (hfit : bmp.availableLength ≤ bmp.dataLength) (P : List Byte) (hP : P.length + 4 < U32)
    (hcap : (P.length + 4) * 8 ≤ bmp.availableLength) (junk : Nat → Byte) (dest : List Byte)
    (hdata : bmp.data = putBits bmp.rowLength bmp.rowAvailableLength
      (bitsOfBytes (le32Bytes P.length ++ P)) 0 dest) :
    extractData junk bmp = .ok P := by
  have hra : 0 < bmp.rowAvailableLength := rowAvailable_pos hacc (by omega)
  have hle := (row_geometry hacc).1
  have hbits : ∀ k, k < 8 * (P.length + 4) →
      some (lsbAt bmp.rowLength bmp.rowAvailableLength bmp.data k)
        = (bitsOfBytes (le32Bytes P.length ++ P))[k]? := by
    intro k hk
    have hin := offsetOf_lt_dataLength hacc hfit k (by omega)
    rw [hdata, putBits_length] at hin
    rw [hdata]
    exact lsbAt_putBits _ _ hra hle _ _ k (by rw [bitsOfBytes_length, frame_length]; exact hk) hin
  have h4 : unpack bmp.rowLength bmp.rowAvailableLength bmp.data 0 (uninit junk 4)
      = le32Bytes P.length := by
    apply unpack_eq_of_lsb
    · rw [uninit_length, le32Bytes_length]
    · intro k hk
      rw [le32Bytes_length] at hk
      rw [Nat.zero_add, hbits k (by omega), bitsOfBytes_append,
        List.getElem?_append_left (by rw [bitsOfBytes_length, le32Bytes_length]; exact hk)]
  have hall : unpack bmp.rowLength bmp.rowAvailableLength bmp.data 0
      (uninit junk (4 + P.length)) = le32Bytes P.length ++ P := by
    apply unpack_eq_of_lsb
    · rw [uninit_length, frame_length, Nat.add_comm]
    · intro k hk
      rw [frame_length] at hk
      rw [Nat.zero_add, hbits k hk]
  have hd : le32 (le32Bytes P.length) 0 = P.length :=
    le32_le32Bytes _ (by unfold U32 at hP; omega)
  rw [extractData_cases hacc junk (by omega) hfit, h4, hd, if_neg (by omega), if_neg (by omega),
    hall, List.drop_left' (le32Bytes_length _), List.take_length]

/-- The read branch never divides by zero: it stops at its size check when
`availableLength < 4`, and `rowLength > 0` otherwise. -/
theorem extractData_no_div {file : List Byte} {bmp : Bitmap} (hacc : readBitmap file = .ok bmp)
    (junk : Nat → Byte) : extractData junk bmp ≠ .error .divisionByZero := by
  unfold extractData
  by_cases hA : bmp.availableLength < sizeofU32
  · rw [if_pos hA]; simp
  rw [if_neg hA]
  have hra : 0 < bmp.rowAvailableLength :=
    rowAvailable_pos hacc (by unfold sizeofU32 at hA; omega)
  have hle := (row_geometry hacc).1
  have h1 := readData_no_div _ _ hra hle (uninit junk sizeofU32) bmp.data sizeofU32
    (by rw [uninit_length])
  cases hr : readDataFromLeastSignificantBitPerRow (uninit junk sizeofU32) bmp.data
      bmp.rowLength bmp.rowAvailableLength sizeofU32 with
  | error e =>
    rw [hr] at h1
    simpa using h1
  | ok lengthBytes =>
    simp only []
    split_ifs
    · simp
    · have h2 := readData_no_div _ _ hra hle
        (uninit junk ((sizeofU32 + le32 lengthBytes 0) % U32)) bmp.data
        ((sizeofU32 + le32 lengthBytes 0) % U32) (by rw [uninit_length])
      cases hb : readDataFromLeastSignificantBitPerRow
          (uninit junk ((sizeofU32 + le32 lengthBytes 0) % U32)) bmp.data
          bmp.rowLength bmp.rowAvailableLength ((sizeofU32 + le32 lengthBytes 0) % U32) with
      | error e =>
        rw [hb] at h2
        simpa using h2
      | ok buffer =>
        simp only []
        split_ifs <;> simp

/-- Two runs of the read branch end the same when the bitmaps have the same geometry
and their pixel buffers agree on the least-significant bits of the available bytes of
the frame the first one declares. -/
theorem extractData_congr (bmp1 bmp2 : Bitmap) (junk1 junk2 : Nat → Byte)
    (hra : 0 < bmp1.rowAvailableLength) (hle : bmp1.rowAvailableLength ≤ bmp1.rowLength)
    (hA : bmp2.availableLength = bmp1.availableLength)
    (hL : bmp2.rowLength = bmp1.rowLength)
    (hR : bmp2.rowAvailableLength = bmp1.rowAvailableLength)
    (hag : ∀ k, k < (declaredLength bmp1.rowLength bmp1.rowAvailableLength bmp1.data + 4) * 8 →
      (bmp1.data[offsetOf bmp1.rowLength bmp1.rowAvailableLength k]?).map
          (fun v : Byte => getBit v 0)
        = (bmp2.data[offsetOf bmp1.rowLength bmp1.rowAvailableLength k]?).map
          (fun v : Byte => getBit v 0)) :
    extractData junk1 bmp1 = extractData junk2 bmp2 := by
  have hfirst : readDataFromLeastSignificantBitPerRow (uninit junk2 sizeofU32) bmp2.data
        bmp1.rowLength bmp1.rowAvailableLength sizeofU32
      = readDataFromLeastSignificantBitPerRow (uninit junk1 sizeofU32) bmp1.data
        bmp1.rowLength bmp1.rowAvailableLength sizeofU32 :=
    (readData_congr _ _ hra hle _ _ _ _ _ (by rw [uninit_length]) (by rw [uninit_length])
      (fun k hk => hag k (by unfold sizeofU32 at hk; omega))).symm
  unfold extractData
  rw [hA, hL, hR, hfirst]
  by_cases h4 : bmp1.availableLength < sizeofU32
  · rw [if_pos h4, if_pos h4]
  rw [if_neg h4, if_neg h4]
  have hr := readData_eq _ _ hra hle (uninit junk1 sizeofU32) bmp1.data sizeofU32
    (by rw [uninit_length])
  by_cases hc : ∀ k, k < 8 * sizeofU32 →
      offsetOf bmp1.rowLength bmp1.rowAvailableLength k < bmp1.data.length
  swap
  · rw [if_neg hc] at hr
    rw [hr]
  rw [if_pos hc] at hr
  rw [hr]
  simp only []
  have hd : le32 (unpack bmp1.rowLength bmp1.rowAvailableLength bmp1.data 0
        ((uninit junk1 sizeofU32).take sizeofU32)) 0
      = declaredLength bmp1.rowLength bmp1.rowAvailableLength bmp1.data := by
    unfold declaredLength
    rw [unpack_congr_lsb _ _ bmp1.data bmp1.data 0 _ (List.replicate 4 0)
      (by rw [List.length_take, uninit_length, List.length_replicate]; rfl) (fun _ _ => rfl)]
  rw [hd]
  generalize declaredLength bmp1.rowLength bmp1.rowAvailableLength bmp1.data = d at hag ⊢
  by_cases hq : bmp1.availableLength < ((d + sizeofU32) % SIZE * 8) % SIZE
  · rw [if_pos hq, if_pos hq]
  rw [if_neg hq, if_neg hq]
  have hsecond : readDataFromLeastSignificantBitPerRow (uninit junk2 ((sizeofU32 + d) % U32))
        bmp2.data bmp1.rowLength bmp1.rowAvailableLength ((sizeofU32 + d) % U32)
      = readDataFromLeastSignificantBitPerRow (uninit junk1 ((sizeofU32 + d) % U32))
        bmp1.data bmp1.rowLength bmp1.rowAvailableLength ((sizeofU32 + d) % U32) :=
    (readData_congr _ _ hra hle _ _ _ _ _ (by rw [uninit_length]) (by rw [uninit_length])
      (fun k hk => hag k (by
        have := Nat.mod_le (sizeofU32 + d) U32
        unfold sizeofU32 at *
        omega))).symm
  rw [hsecond]

/-- The run `main -r` on an accepted bitmap is its read branch. -/
theorem extract_eq_extractData {file : List Byte} {bmp : Bitmap}
    (hacc : readBitmap file = .ok bmp) (junk : Nat → Byte) :
    extract junk file = extractData junk bmp := by
  unfold extract
  rw [hacc]

/-- The length the read branch reads does not depend on what the uninitialised
`dataLength` held: it is the length the first 32 available bytes declare. -/
theorem le32_unpack_uninit (rl ra : Nat) (data : List Byte) (junk : Nat → Byte) :
    le32 (unpack rl ra data 0 (uninit junk 4)) 0 = declaredLength rl ra data := by
  unfold declaredLength
  rw [unpack_congr_lsb rl ra data data 0 (uninit junk 4) (List.replicate 4 0)
    (by rw [uninit_length, List.length_replicate]) (fun _ _ => rfl)]

/-- The read branch on an accepted bitmap with at least 32 available bytes, all
inside the pixel buffer, in terms of the length `d` its first 32 available bytes
declare: the capacity error when `(d + 4) * 8 > availableLength`, and otherwise,
when the frame length `d + 4` fits 32 bits, `d` bytes. -/
theorem extractData_plausibility {file : List Byte} {bmp : Bitmap}
    (hacc : readBitmap file = .ok bmp) (junk : Nat → Byte) (h32 : 32 ≤ bmp.availableLength)
    (hfit : bmp.availableLength ≤ bmp.dataLength) :
    ((declaredLength bmp.rowLength bmp.rowAvailableLength bmp.data + 4) * 8
        > bmp.availableLength →
      extractData junk bmp = .error .bitmapTooSmallOrNoData) ∧
    ((declaredLength bmp.rowLength bmp.rowAvailableLength bmp.data + 4) * 8
        ≤ bmp.availableLength →
      declaredLength bmp.rowLength bmp.rowAvailableLength bmp.data + 4 < U32 →
      ∃ P, extractData junk bmp = .ok P ∧
        P.length = declaredLength bmp.rowLength bmp.rowAvailableLength bmp.data) ∧
    ((declaredLength bmp.rowLength bmp.rowAvailableLength bmp.data + 4) * 8
        ≤ bmp.availableLength →
      U32 ≤ declaredLength bmp.rowLength bmp.rowAvailableLength bmp.data + 4 →
      extractData junk bmp = .error .outOfBounds) := by
  have hc := extractData_cases hacc junk h32 hfit
  rw [le32_unpack_uninit] at hc
  generalize declaredLength bmp.rowLength bmp.rowAvailableLength bmp.data = d at hc ⊢
  refine ⟨fun h => ?_, fun h hw => ?_, fun h hw => ?_⟩
  · rw [hc, if_pos h]
  · rw [hc, if_neg (by omega), if_neg (by omega)]
    refine ⟨_, rfl, ?_⟩
    rw [List.length_take, List.length_drop, unpack_length, uninit_length]
    omega
  · rw [hc, if_neg (by omega), if_pos hw]

/-- Round trip through the files, for a bitmap whose pixel data lies behind the
header and whose available bytes all lie inside the pixel buffer. -/
theorem roundTrip_core {file : List Byte} {bmp : Bitmap} (hacc : readBitmap file = .ok bmp)
    (hoff : sizeofBitmapHeader ≤ hdrDataOffset file)
    (hfit : bmp.availableLength ≤ bmp.dataLength) (P : List Byte) (hP : P.length + 4 < U32)
    (hcap : (P.length + 4) * 8 ≤ bmp.availableLength) :
    ∃ out, embed file P = .ok out ∧ ∀ junk, extract junk out = .ok P := by
  have hemb := embedData_ok hacc hfit P hP hcap
  have hlen : (putBits bmp.rowLength bmp.rowAvailableLength
      (bitsOfBytes (le32Bytes P.length ++ P)) 0 bmp.data).length = bmp.dataLength := by
    rw [putBits_length]; exact (readBitmap_ok hacc).2.2.2.2.2.2.2
  refine ⟨_, embed_eq_of_embedData hacc P _ hemb hlen, fun junk => ?_⟩
  have hacc' := readBitmap_splice hacc _ hlen hoff
  unfold extract
  rw [hacc']
  simp only []
  exact extractData_putBits hacc' hfit P hP hcap junk bmp.data rfl

/-! ## The program on the concrete files -/

theorem mkHeader_length (o w h : Nat) : (mkHeader o w h).length = 54 := rfl

/-- The bytes `main -w` writes for `overlapFile` and the payload `[0x41]`: the
least-significant bits of header bytes 0 to 39 hold the 40 bits of the frame. -/
theorem embed_overlapFile :
    embed overlapFile [0x41] = .ok
      ([0x43, 0x4c, 0, 0, 0, 0, 0, 0, 0, 0, 0, 0, 0, 0, 40, 0, 0, 0, 4, 0, 0, 0, 4, 0, 0, 0,
        0, 0, 24, 0, 0, 0, 1, 0, 0, 0, 0, 0, 1, 0] ++ List.replicate 14 0) := by
  decide

/-- The bitmap `readBitmap` accepts from `overflowFile` has a pixel buffer of 4
bytes and a capacity of more than `2^63` bytes: the embed path passes the capacity
check for the 1-byte payload `0x41` and writes outside the buffer. -/
theorem embed_overflowFile_outside_buffer :
    embed overflowFile [0x41] = .error .outOfBounds := by
  decide

theorem hugeBitmap_length : hugeBitmap.length = 54 + 34359738432 := by
  unfold hugeBitmap
  rw [List.length_append, mkHeader_length, List.length_replicate]

theorem readBitmap_hugeBitmap : readBitmap hugeBitmap = .ok hugePixels := by
  have b0 : byteAt hugeBitmap 0 = 0x42 := by decide
  have b1 : byteAt hugeBitmap 1 = 0x4d := by decide
  have r6 : le16 hugeBitmap 6 = 0 := by decide
  have r8 : le16 hugeBitmap 8 = 0 := by decide
  have p : le16 hugeBitmap 26 = 1 := by decide
  have c : le16 hugeBitmap 28 = 24 := by decide
  have z : le32 hugeBitmap 30 = 0 := by decide
  have o : le32 hugeBitmap 10 = 54 := by decide
  have w : le32 hugeBitmap 18 = 715827883 := by decide
  have h : le32 hugeBitmap 22 = 16 := by decide
  have a : align ((715827883 * 3) % SIZE) 4 = 2147483652 := by decide
  have d : (2147483652 * 16) % SIZE = 34359738432 := by decide
  have av : ((715827883 * 16) % SIZE * 3) % SIZE = 34359738384 := by decide
  have ra : (715827883 * 3) % SIZE = 2147483649 := by decide
  rw [readBitmap_ok_iff, b0, b1, r6, r8, p, c, z, o, w, h, a, d, av, ra, hugeBitmap_length,
    List.length_take, List.length_drop, hugeBitmap_length]
  refine ⟨by decide, by decide, by decide, rfl, rfl, rfl, by decide, by decide, rfl⟩

theorem hugeBitmap17_length : hugeBitmap17.length = 54 + 36507222084 := by
  unfold hugeBitmap17
  rw [List.length_append, mkHeader_length, List.length_replicate]

theorem readBitmap_hugeBitmap17 : readBitmap hugeBitmap17 = .ok hugePixels17 := by
  have b0 : byteAt hugeBitmap17 0 = 0x42 := by decide
  have b1 : byteAt hugeBitmap17 1 = 0x4d := by decide
  have r6 : le16 hugeBitmap17 6 = 0 := by decide
  have r8 : le16 hugeBitmap17 8 = 0 := by decide
  have p : le16 hugeBitmap17 26 = 1 := by decide
  have c : le16 hugeBitmap17 28 = 24 := by decide
  have z : le32 hugeBitmap17 30 = 0 := by decide
  have o : le32 hugeBitmap17 10 = 54 := by decide
  have w : le32 hugeBitmap17 18 = 715827883 := by decide
  have h : le32 hugeBitmap17 22 = 17 := by decide
  have a : align ((715827883 * 3) % SIZE) 4 = 2147483652 := by decide
  have d : (2147483652 * 17) % SIZE = 36507222084 := by decide
  have av : ((715827883 * 17) % SIZE * 3) % SIZE = 36507222033 := by decide
  have ra : (715827883 * 3) % SIZE = 2147483649 := by decide
  rw [readBitmap_ok_iff, b0, b1, r6, r8, p, c, z, o, w, h, a, d, av, ra, hugeBitmap17_length,
    List.length_take, List.length_drop, hugeBitmap17_length]
  refine ⟨by decide, by decide, by decide, rfl, rfl, rfl, by decide, by decide, rfl⟩

/-- The write branch on `hugeBitmap17` and `payload4GiB`: the length `2^32` is
stored as 0 in the `uint32_t dataLength`, and the frame written is the 4 bytes of
the length prefix 0. -/
theorem embedData_payload4GiB :
    embedData hugePixels17 payload4GiB = .ok (putBits 2147483652 2147483649
      (bitsOfBytes [0, 0, 0, 0]) 0 hugePixels17.data) := by
  have hl : payload4GiB.length = 4294967296 := List.length_replicate _ _
  have hlen : hugePixels17.data.length = 36507222084 :=
    (readBitmap_ok readBitmap_hugeBitmap17).2.2.2.2.2.2.2
  unfold embedData
  simp only [hl]
  rw [if_neg (by decide), if_neg (by decide)]
  have e0 : (4294967296 : Nat) % U32 = 0 := by decide
  have e4 : (sizeofU32 + 0) % U32 = 4 := by decide
  rw [e0, e4, List.take_zero, List.append_nil]
  show writeDataToLeastSignificantBitPerRow hugePixels17.data (le32Bytes 0) 2147483652
    2147483649 4 = _
  rw [writeData_eq _ _ (by decide) (by decide) _ _ _ (by decide), if_pos]
  · rfl
  · intro k hk
    rw [hlen]
    have := offsetOf_lt 2147483652 2147483649 17 k (by decide) (by decide) (by omega)
    omega

theorem whiteBitmap17_length : whiteBitmap17.length = 54 + 36507222084 := by
  unfold whiteBitmap17
  rw [List.length_append, mkHeader_length, List.length_replicate]

theorem readBitmap_whiteBitmap17 : readBitmap whiteBitmap17 = .ok whitePixels17 := by
  have b0 : byteAt whiteBitmap17 0 = 0x42 := by decide
  have b1 : byteAt whiteBitmap17 1 = 0x4d := by decide
  have r6 : le16 whiteBitmap17 6 = 0 := by decide
  have r8 : le16 whiteBitmap17 8 = 0 := by decide
  have p : le16 whiteBitmap17 26 = 1 := by decide
  have c : le16 whiteBitmap17 28 = 24 := by decide
  have z : le32 whiteBitmap17 30 = 0 := by decide
  have o : le32 whiteBitmap17 10 = 54 := by decide
  have w : le32 whiteBitmap17 18 = 715827883 := by decide
  have h : le32 whiteBitmap17 22 = 17 := by decide
  have a : align ((715827883 * 3) % SIZE) 4 = 2147483652 := by decide
  have d : (2147483652 * 17) % SIZE = 36507222084 := by decide
  have av : ((715827883 * 17) % SIZE * 3) % SIZE = 36507222033 := by decide
  have ra : (715827883 * 3) % SIZE = 2147483649 := by decide
  rw [readBitmap_ok_iff, b0, b1, r6, r8, p, c, z, o, w, h, a, d, av, ra, whiteBitmap17_length,
    List.length_take, List.length_drop, whiteBitmap17_length]
  refine ⟨by decide, by decide, by decide, rfl, rfl, rfl, by decide, by decide, rfl⟩

/-- The first 32 available bytes of the pixel buffer of `whiteBitmap17` are its
bytes 0 to 31, and their least-significant bits are 1. -/
theorem whitePixels17_lsb (k : Nat) (hk : k < 32) :
    lsbAt 2147483652 2147483649 whitePixels17.data k = true := by
  have ho : offsetOf 2147483652 2147483649 k = k := by
    unfold offsetOf
    rw [Nat.div_eq_of_lt (by omega), Nat.mod_eq_of_lt (by omega)]
    omega
  have hg : whitePixels17.data[k]? = some 0xff := by
    show ((whiteBitmap17.drop 54).take 36507222084)[k]? = some 0xff
    rw [List.getElem?_take_of_lt (by omega), List.getElem?_drop]
    unfold whiteBitmap17
    rw [List.getElem?_append_right (by rw [mkHeader_length]; omega), mkHeader_length,
      List.getElem?_replicate, if_pos (by omega)]
  unfold lsbAt
  rw [ho, List.getD_eq_getElem?_getD, hg]
  rfl

theorem declaredLength_whitePixels17 :
    declaredLength whitePixels17.rowLength whitePixels17.rowAvailableLength whitePixels17.data
      = 4294967295 := by
  show le32 (unpack 2147483652 2147483649 whitePixels17.data 0 (List.replicate 4 0)) 0 = _
  rw [unpack_eq_of_lsb 2147483652 2147483649 whitePixels17.data [0xff, 0xff, 0xff, 0xff] 0
    (List.replicate 4 0) rfl]
  · decide
  · intro k hk
    have hk' : k < 32 := hk
    rw [Nat.zero_add, whitePixels17_lsb k hk']
    interval_cases k <;> rfl

/-- The read branch on the 86-byte file `overflowWhite`, which `readBitmap` accepts
through the overflow of its pixel-data size: the 32 bytes of its pixel buffer declare
the length `2^32 - 1`, the wrapped `availableLength` passes the plausibility check,
the frame length wraps to 3 in `bufferSize`, and the payload bytes are taken from
outside the 3-byte buffer. -/
theorem extract_overflowWhite :
    7298904164 * 2527330632 = 2 ^ 64 + 32 ∧
    readBitmap overflowWhite = .ok overflowWhitePixels ∧
    declaredLength overflowWhitePixels.rowLength overflowWhitePixels.rowAvailableLength
      overflowWhitePixels.data = 4294967295 ∧
    (4294967295 + 4) * 8 ≤ overflowWhitePixels.availableLength ∧
    ∀ junk, extract junk overflowWhite = .error .outOfBounds := by
  have hacc : readBitmap overflowWhite = .ok overflowWhitePixels := by decide
  refine ⟨by decide, hacc, by decide, by decide, fun junk => ?_⟩
  unfold extract
  rw [hacc]
  show extractData junk overflowWhitePixels = _
  rw [extractData_congr overflowWhitePixels overflowWhitePixels junk (fun _ => 0)
    (by decide) (by decide) rfl rfl rfl (fun _ _ => rfl)]
  decide

theorem readBitmap_zeroWidthFile :
    readBitmap zeroWidthFile = .ok zeroWidthPixels := by
  decide

/-! ## C1: end-to-end round trip -/

/-- C1, counterexample.  `overlapFile` is accepted by `readBitmap` and the 1-byte
payload `0x41` is within its capacity (`(1 + 4) * 8 ≤ 48`), but the round trip fails:
the embed path overwrites the least-significant bits of the header, which is where
the file says its pixel data is, and the extract path rejects the produced file. -/
theorem roundTrip_fails_on_header_overlap :
    readBitmap overlapFile = .ok overlapBitmap ∧
    (([0x41] : List Byte).length + 4) * 8 ≤ overlapBitmap.availableLength ∧
    ¬ ∃ out, embed overlapFile [0x41] = .ok out ∧ extract (fun _ => 0) out = .ok [0x41] := by
  refine ⟨by decide, by decide, ?_⟩
  rintro ⟨out, h1, h2⟩
  rw [embed_overlapFile] at h1
  injection h1 with h1
  have e2 : extract (fun _ => 0) out = .error .incorrectMagic := by
    rw [← h1]; decide
  rw [e2] at h2
  cases h2

/-- C1, amended.  For every bitmap file accepted by `readBitmap` whose pixel data
starts behind the 54-byte header and whose pixel-data size
`align(width*3, 4) * height` fits `size_t`, and every payload `P` with
`len(P) + 4 < 2^32` and `(len(P) + 4) * 8 ≤ availableLength`: the embed path
succeeds, and the extract path on the produced file succeeds and returns exactly
`P`, whatever the content of uninitialised storage. -/
theorem embed_extract_roundTrip (file : List Byte) (bmp : Bitmap) (P : List Byte)
    (hacc : readBitmap file = .ok bmp)
    (hoff : sizeofBitmapHeader ≤ hdrDataOffset file)
    (hno : align (hdrWidth file * 3) 4 * hdrHeight file < SIZE)
    (hP : P.length + 4 < U32)
    (hcap : (P.length + 4) * 8 ≤ bmp.availableLength) :
    ∃ out, embed file P = .ok out ∧ ∀ junk, extract junk out = .ok P := by
  have hw : hdrWidth file < 4294967296 := le32_lt file 18
  have hrl : bmp.rowLength = align (hdrWidth file * 3) 4 := by
    rw [(readBitmap_ok hacc).2.2.1, align_four _ (by unfold SIZE; omega)]
  exact roundTrip_core hacc hoff
    (avail_le_data_of_noOverflow hacc (by rw [hrl]; exact hno)) P hP hcap

/-- C1, witness: the payload `[0x41, 0x42]` in a 4×4 bitmap. -/
theorem embed_extract_roundTrip_witness :
    readBitmap bitmap4x4 = .ok pixels4x4 ∧
    ∃ out, embed bitmap4x4 [0x41, 0x42] = .ok out ∧
      ∀ junk, extract junk out = .ok [0x41, 0x42] :=
  ⟨by decide, embed_extract_roundTrip bitmap4x4 pixels4x4 [0x41, 0x42] (by decide) (by decide)
    (by decide) (by decide) (by decide)⟩

/-! ## C2: the 2×2 scenario -/

/-- C2, counterexample.  A valid 2×2 24-bit bitmap has `availableLength = 12`, not
24, and embedding the 1-byte payload `0x41` does not pass the capacity check: the
40 bits of the frame need 40 available bytes. -/
theorem scenario_2x2_fails :
    readBitmap bitmap2x2 = .ok
      { data := List.replicate 16 0xff, dataLength := 16, availableLength := 12,
        rowLength := 8, rowAvailableLength := 6 } ∧
    embed bitmap2x2 [0x41] = .error .insufficientCapacity ∧
    ¬ ∃ out, embed bitmap2x2 [0x41] = .ok out := by
  refine ⟨by decide, by decide, ?_⟩
  rintro ⟨out, h⟩
  have e : embed bitmap2x2 [0x41] = .error .insufficientCapacity := by decide
  rw [e] at h
  cases h

/-- C2, amended.  For every accepted 2×2 24-bit bitmap, `rowAvailableLength = 6`,
`rowLength = 8`, `dataLength = 16` and `availableLength = 12`; embedding the
1-byte payload `0x41` (a 5-byte frame, 40 bits, one per available byte) fails the
capacity check, since `40 > 12`, with the capacity error. -/
theorem scenario_2x2 (file : List Byte) (bmp : Bitmap) (hacc : readBitmap file = .ok bmp)
    (hw : hdrWidth file = 2) (hh : hdrHeight file = 2) :
    bmp.rowAvailableLength = 6 ∧ bmp.rowLength = 8 ∧ bmp.dataLength = 16 ∧
    bmp.availableLength = 12 ∧ ([0x41] : List Byte).length + 4 = 5 ∧
    (5 * 8 > bmp.availableLength) ∧
    embed file [0x41] = .error .insufficientCapacity := by
  obtain ⟨_, h2, h3, h4, h5, _⟩ := readBitmap_ok hacc
  rw [hw] at h2 h3
  rw [h3, hh] at h4
  rw [h2, hh] at h5
  have hA : bmp.availableLength = 12 := by rw [h5]; rfl
  refine ⟨h2, h3, by rw [h4]; rfl, hA, rfl, by omega, ?_⟩
  rw [embed_cases hacc _ (by decide), if_pos (by rw [hA]; decide)]

/-- C2, witness: the bitmap `bitmap2x2`. -/
theorem scenario_2x2_witness :
    readBitmap bitmap2x2 = .ok
      { data := List.replicate 16 0xff, dataLength := 16, availableLength := 12,
        rowLength := 8, rowAvailableLength := 6 } ∧
    embed bitmap2x2 [0x41] = .error .insufficientCapacity :=
  ⟨by decide, (scenario_2x2 bitmap2x2 _ (by decide : readBitmap bitmap2x2 = .ok
      { data := List.replicate 16 0xff, dataLength := 16, availableLength := 12,
        rowLength := 8, rowAvailableLength := 6 }) (by decide) (by decide)).2.2.2.2.2.2⟩

/-! ## C3: the capacity check of the embed path -/

/-- C3, the code at the failing input.  The payload `hugePayload` of `2^32 - 2`
bytes, whose length fits the 32-bit length prefix, is exactly at the capacity of the
accepted bitmap `hugeBitmap`, `(len(P) + 4) * 8 = availableLength`, so the claim
demands that the embed succeeds.  It passes the capacity check and does not succeed:
the frame length `2^32 + 2` wraps to 2 in the `uint32_t bufferSize`, and the frame is
copied into a buffer of 2 bytes. -/
theorem embed_at_capacity_fails_for_wrapped_frame :
    readBitmap hugeBitmap = .ok hugePixels ∧
    (hugePayload.length + 4) * 8 = hugePixels.availableLength ∧
    embed hugeBitmap hugePayload = .error .outOfBounds ∧
    ¬ ∃ out, embed hugeBitmap hugePayload = .ok out := by
  have hl : hugePayload.length = 4294967294 := List.length_replicate _ _
  have he : embed hugeBitmap hugePayload = .error .outOfBounds := by
    rw [embed_cases readBitmap_hugeBitmap hugePayload (by rw [hl]; decide), hl,
      if_neg (by decide), if_pos (by decide)]
  refine ⟨readBitmap_hugeBitmap, by rw [hl]; rfl, he, ?_⟩
  rintro ⟨out, h⟩
  rw [he] at h
  cases h

/-- The capacity check where the frame length does not wrap.  For every accepted
bitmap and every payload `P` whose bit count `(len(P) + 4) * 8` fits `size_t`, the
embed path fails with the capacity error if and only if
`(len(P) + 4) * 8 > availableLength`; in particular it fails with it when
`(len(P) + 4) * 8 = availableLength + 1`, and when
`(len(P) + 4) * 8 = availableLength` it succeeds if the frame length `len(P) + 4`
fits 32 bits. -/
theorem embed_capacity_check (file : List Byte) (bmp : Bitmap) (P : List Byte)
    (hacc : readBitmap file = .ok bmp) (hP : (P.length + 4) * 8 < SIZE) :
    ((∃ e, embed file P = .error e ∧ e.isCapacityError = true)
      ↔ (P.length + 4) * 8 > bmp.availableLength) ∧
    (embed file P = .error .insufficientCapacity
      ↔ (P.length + 4) * 8 > bmp.availableLength) ∧
    ((P.length + 4) * 8 = bmp.availableLength → P.length + 4 < U32 →
      ∃ out, embed file P = .ok out) ∧
    ((P.length + 4) * 8 = bmp.availableLength + 1 →
      embed file P = .error .insufficientCapacity) := by
  have e1 : ((P.length + sizeofU32) % SIZE * 8) % SIZE = (P.length + 4) * 8 := by
    unfold sizeofU32 SIZE at *; omega
  have key : ∀ e, embed file P = .error e → e.isCapacityError = true →
      (P.length + 4) * 8 > bmp.availableLength := by
    intro e he hk
    have := embed_capacity_error hacc P e he hk
    rwa [e1] at this
  have fail : (P.length + 4) * 8 > bmp.availableLength →
      embed file P = .error .insufficientCapacity :=
    fun h => embed_capacity_fail hacc P (by rw [e1]; exact h)
  refine ⟨⟨fun ⟨e, he, hk⟩ => key e he hk, fun h => ⟨.insufficientCapacity, fail h, rfl⟩⟩,
    ⟨fun he => key _ he rfl, fail⟩, fun heq hf => ?_, fun heq => fail (by omega)⟩
  have hfit : bmp.availableLength ≤ bmp.dataLength :=
    avail_le_data_of_small hacc (by unfold U32 at hf; omega)
  exact ⟨_, embed_eq_of_embedData hacc P _ (embedData_ok hacc hfit P hf (by omega))
    (by rw [putBits_length]; exact (readBitmap_ok hacc).2.2.2.2.2.2.2)⟩

/-- An instance: in a 4×4 bitmap (48 available bytes) a 2-byte payload is at the
boundary, `(2 + 4) * 8 = 48`, and is embedded; in a 2×2 bitmap (12 available
bytes) a 1-byte payload is rejected. -/
theorem embed_capacity_check_witness :
    (∃ out, embed bitmap4x4 [0x41, 0x42] = .ok out) ∧
    embed bitmap2x2 [0x41] = .error .insufficientCapacity :=
  ⟨(embed_capacity_check bitmap4x4 pixels4x4 [0x41, 0x42] (by decide) (by decide)).2.2.1
      (by decide) (by decide),
    (embed_capacity_check bitmap2x2 _ [0x41] (by decide : readBitmap bitmap2x2 = .ok
      { data := List.replicate 16 0xff, dataLength := 16, availableLength := 12,
        rowLength := 8, rowAvailableLength := 6 }) (by decide)).2.1.2 (by decide)⟩

/-! ## C4: header rejection -/

/-- C4.  For every input byte sequence, `readBitmap` fails with a format error if
the input is shorter than the 54-byte header, or a magic byte is not `0x42`, `0x4d`,
or a reserved field is non-zero, or `planes ≠ 1`, or `bitCountPerPixel ≠ 24`, or
`compression ≠ 0`: one violation suffices, whatever the other fields and the rest of
the file are. -/
theorem readBitmap_rejects_bad_header (file : List Byte)
    (h : file.length < sizeofBitmapHeader ∨ byteAt file 0 ≠ 0x42 ∨ byteAt file 1 ≠ 0x4d ∨
      le16 file 6 ≠ 0 ∨ le16 file 8 ≠ 0 ∨ hdrPlanes file ≠ 1 ∨
      hdrBitCountPerPixel file ≠ 24 ∨ hdrCompression file ≠ 0) :
    ∃ e, readBitmap file = .error e ∧ e.isFormatError = true := by
  unfold readBitmap
  by_cases h1 : file.length < sizeofBitmapHeader
  · exact ⟨_, if_pos h1, rfl⟩
  rw [if_neg h1]
  by_cases h2 : ¬ (byteAt file 0 = 0x42 ∧ byteAt file 1 = 0x4d)
  · exact ⟨_, if_pos h2, rfl⟩
  rw [if_neg h2]
  by_cases h3 : ¬ (le16 file 6 = 0 ∧ le16 file 8 = 0)
  · exact ⟨_, if_pos h3, rfl⟩
  rw [if_neg h3]
  by_cases h4 : hdrPlanes file ≠ 1
  · exact ⟨_, if_pos h4, rfl⟩
  rw [if_neg h4]
  by_cases h5 : hdrBitCountPerPixel file ≠ 24
  · exact ⟨_, if_pos h5, rfl⟩
  rw [if_neg h5]
  by_cases h6 : hdrCompression file ≠ 0
  · exact ⟨_, if_pos h6, rfl⟩
  exfalso
  rw [not_not] at h2 h3
  rcases h with h | h | h | h | h | h | h | h
  · exact h1 h
  · exact h h2.1
  · exact h h2.2
  · exact h h3.1
  · exact h h3.2
  · exact h4 h
  · exact h5 h
  · exact h6 h

/-- C4, witness: a header with `planes = 2`. -/
theorem readBitmap_rejects_bad_header_witness :
    hdrPlanes twoPlanesFile = 2 ∧
    ∃ e, readBitmap twoPlanesFile = .error e ∧ e.isFormatError = true :=
  ⟨by decide, readBitmap_rejects_bad_header twoPlanesFile
    (Or.inr (Or.inr (Or.inr (Or.inr (Or.inr (Or.inl (by decide)))))))⟩

/-! ## C5: truncated files -/

/-- C5, the code at the failing input.  The header of the 58-byte `overflowFile`
passes the field checks and declares `(width*3 + 3) / 4 * 4 * height = 2^64 + 4`
bytes of pixel data at offset 54, far more than the file has; `readBitmap` accepts
the file, with `dataLength = 4`. -/
theorem readBitmap_accepts_truncated_file :
    overflowFile.length = 58 ∧
    hdrDataOffset overflowFile = 54 ∧
    (hdrWidth overflowFile * 3 + 3) / 4 * 4 * hdrHeight overflowFile = 2 ^ 64 + 4 ∧
    overflowFile.length <
      hdrDataOffset overflowFile
        + (hdrWidth overflowFile * 3 + 3) / 4 * 4 * hdrHeight overflowFile ∧
    readBitmap overflowFile = .ok
      { data := List.replicate 4 0xff, dataLength := 4,
        availableLength := 18446744071562133507,
        rowLength := 8590196740, rowAvailableLength := 8590196739 } := by
  refine ⟨by decide, by decide, by decide, by decide, by decide⟩

/-! ## C6: the cursor and the pixel buffer -/

/-- C6, the code at the failing input.  The 1×2 bitmap `bitmap1x2` is accepted with
an 8-byte pixel buffer and 6 available bytes; the size check of the read branch
(`availableLength < 4`) lets it pass, and of the 32 offsets visited to read the
length prefix the seventh is 8, the size of the pixel buffer: the run reads outside
the buffer. -/
theorem extract_visits_offset_outside_buffer :
    readBitmap bitmap1x2 = .ok
      { data := List.replicate 8 0xff, dataLength := 8, availableLength := 6,
        rowLength := 4, rowAvailableLength := 3 } ∧
    ¬ (6 < sizeofU32) ∧
    (cursorOffsets 4 3 32 0).take 7 = [0, 1, 2, 4, 5, 6, 8] ∧
    (∀ junk, extract junk bitmap1x2 = .error .outOfBounds) := by
  refine ⟨by decide, by decide, by decide, fun junk => rfl⟩

/-! ## C7: row padding -/

/-- C7.  For every geometry with `0 < rowAvailableLength ≤ rowLength` and every
source of which `writeLength` bytes are written:
`writeDataToLeastSignificantBitPerRow` leaves every padding byte of the pixel buffer
(every offset `j` with `j mod rowLength ≥ rowAvailableLength`) byte-identical to its
original value, and the buffer keeps its length; the write does return when
`writeLength * 8 ≤ rowAvailableLength * height` and the pixel buffer has its
`rowLength * height` bytes. -/
theorem write_preserves_padding (dest source : List Byte)
    (rowLength rowAvailableLength height writeLength : Nat)
    (hra : 0 < rowAvailableLength) (hle : rowAvailableLength ≤ rowLength)
    (hsrc : writeLength ≤ source.length) :
    (∀ dest', writeDataToLeastSignificantBitPerRow dest source rowLength rowAvailableLength
        writeLength = .ok dest' →
      dest'.length = dest.length ∧
      ∀ j, rowAvailableLength ≤ j % rowLength → dest'[j]? = dest[j]?) ∧
    (writeLength * 8 ≤ rowAvailableLength * height → rowLength * height ≤ dest.length →
      ∃ dest', writeDataToLeastSignificantBitPerRow dest source rowLength rowAvailableLength
        writeLength = .ok dest') := by
  have hw := writeData_eq _ _ hra hle dest source writeLength hsrc
  constructor
  · intro dest' hok
    rw [hw] at hok
    split_ifs at hok
    injection hok with hok
    subst hok
    refine ⟨putBits_length _ _ _ _ _, fun j hj => ?_⟩
    apply putBits_getElem?_of_ne
    intro k _ heq
    have := offsetOf_mod rowLength rowAvailableLength (0 + k) hra hle
    rw [heq] at this
    have := Nat.mod_lt (0 + k) hra
    omega
  · intro hcap hbuf
    rw [hw, if_pos]
    · exact ⟨_, rfl⟩
    · intro k hk
      exact lt_of_lt_of_le (offsetOf_lt _ _ height k hra hle (by omega)) hbuf

/-- C7, witness: width 10 (`rowAvailableLength = 30`, `rowLength = 32`), 2 rows, one
source byte. -/
theorem write_preserves_padding_witness :
    ∃ dest', writeDataToLeastSignificantBitPerRow (List.replicate 64 0xff) [0x41] 32 30 1
        = .ok dest' ∧
      dest'.length = (List.replicate 64 (0xff : Byte)).length ∧
      ∀ j, 30 ≤ j % 32 → dest'[j]? = (List.replicate 64 (0xff : Byte))[j]? :=
  have h := write_preserves_padding (List.replicate 64 0xff) [0x41] 32 30 2 1 (by decide)
    (by decide) (by decide)
  (h.2 (by decide) (by decide)).elim fun dest' hd => ⟨dest', hd, h.1 dest' hd⟩

/-! ## C8: the splice leaves the rest of the file alone -/

/-- C8.  For every accepted input bitmap file and every successful embed, the output
file has the length of the input file, every byte at an index outside
`[dataOffset, dataOffset + dataLength)` is the input file's byte at that index, and
the bytes inside that range are exactly the pixel buffer the write branch
produced. -/
theorem splice_isolation (file P out : List Byte) (bmp : Bitmap)
    (hacc : readBitmap file = .ok bmp) (hemb : embed file P = .ok out) :
    out.length = file.length ∧
    (∀ i, i < hdrDataOffset file ∨ hdrDataOffset file + bmp.dataLength ≤ i →
      out[i]? = file[i]?) ∧
    embedData bmp P = .ok ((out.drop (hdrDataOffset file)).take bmp.dataLength) := by
  obtain ⟨data', hE, hlen, hout⟩ := embed_ok_inv hacc P out hemb
  obtain ⟨_, _, _, _, _, hsz, _, _⟩ := readBitmap_ok hacc
  subst hout
  refine ⟨splice_length file data' _ _ hsz hlen, ?_, ?_⟩
  · rintro i (hi | hi)
    · exact splice_getElem?_lt file data' _ _ i hsz hi
    · exact splice_getElem?_ge file data' _ _ i hsz hlen hi
  · rw [splice_slice file data' _ _ hsz hlen, hE]

/-- C8, witness: the payload `[0x41, 0x42]` embedded in a 4×4 bitmap. -/
theorem splice_isolation_witness :
    ∃ out, embed bitmap4x4 [0x41, 0x42] = .ok out ∧ out.length = bitmap4x4.length ∧
      (∀ i, i < hdrDataOffset bitmap4x4 ∨
          hdrDataOffset bitmap4x4 + pixels4x4.dataLength ≤ i → out[i]? = bitmap4x4[i]?) ∧
      embedData pixels4x4 [0x41, 0x42]
        = .ok ((out.drop (hdrDataOffset bitmap4x4)).take pixels4x4.dataLength) :=
  ⟨mkHeader 54 4 4 ++ ([0xfe, 0xff, 0xfe, 0xfe, 0xfe, 0xfe, 0xfe, 0xfe] ++ List.replicate 24 0xfe
      ++ [0xff, 0xfe, 0xfe, 0xfe, 0xfe, 0xfe, 0xff, 0xfe, 0xfe, 0xff, 0xfe, 0xfe, 0xfe, 0xfe,
        0xff, 0xfe]),
    by decide,
    splice_isolation bitmap4x4 [0x41, 0x42] _ pixels4x4 (by decide) (by decide)⟩

/-! ## C9: plausibility of the declared length -/

/-- C9, the code at the failing input.  The all-white bitmap `whiteBitmap17` is
accepted; the least-significant bits of its first 32 available bytes declare the
length `d = 2^32 - 1`, and `(d + 4) * 8 = 34359738392` is within
`availableLength = 36507222033`, so the claim demands `d` payload bytes.  The run
passes the plausibility check, the frame length `d + 4` wraps to 3 in the
`uint32_t bufferSize`, and the `d` payload bytes are taken from behind byte 4 of a
buffer of 3 bytes: the run returns no payload, and does not end with a capacity
error either. -/
theorem extract_frame_length_wraps :
    readBitmap whiteBitmap17 = .ok whitePixels17 ∧
    declaredLength whitePixels17.rowLength whitePixels17.rowAvailableLength whitePixels17.data
      = 4294967295 ∧
    (4294967295 + 4) * 8 ≤ whitePixels17.availableLength ∧
    (sizeofU32 + 4294967295) % U32 = 3 ∧
    (∀ junk, extract junk whiteBitmap17 = .error .outOfBounds) ∧
    (∀ junk, ¬ ∃ P, extract junk whiteBitmap17 = .ok P) ∧
    Error.isCapacityError .outOfBounds = false := by
  have hacc := readBitmap_whiteBitmap17
  have he : ∀ junk, extract junk whiteBitmap17 = .error .outOfBounds := by
    intro junk
    rw [extract_eq_extractData hacc junk]
    refine (extractData_plausibility hacc junk (by decide) (by decide)).2.2 ?_ ?_
    · rw [declaredLength_whitePixels17]; decide
    · rw [declaredLength_whitePixels17]; decide
  refine ⟨hacc, declaredLength_whitePixels17, by decide, by decide, he, fun junk => ?_, rfl⟩
  rintro ⟨P, h⟩
  rw [he junk] at h
  cases h

/-! ## C10: layout of the frame in the pixel buffer -/

/-- C10, counterexample.  The embed of the payload `payload4GiB` (`2^32` bytes
`0xff`) into the accepted bitmap `hugeBitmap17` succeeds, and bit index
`32 < (len(P) + 4) * 8` is not laid out as claimed: bit 0 of frame byte 4, the first
payload byte, is 1, but the pixel-buffer byte at offset
`(32 / rowAvailableLength) * rowLength + 32 mod rowAvailableLength = 32` is the
untouched 0.  Only the 4 bytes of the wrapped length prefix were written. -/
theorem frame_layout_fails_for_4GiB_payload :
    readBitmap hugeBitmap17 = .ok hugePixels17 ∧
    ∃ out, embed hugeBitmap17 payload4GiB = .ok out ∧
      32 < (payload4GiB.length + 4) * 8 ∧
      ((out.drop (hdrDataOffset hugeBitmap17)).take hugePixels17.dataLength)[
          32 / hugePixels17.rowAvailableLength * hugePixels17.rowLength
            + 32 % hugePixels17.rowAvailableLength]? = some 0 ∧
      getBit (0 : Byte) 0 = false ∧
      getBit ((le32Bytes payload4GiB.length ++ payload4GiB).getD (32 / 8) 0) (32 % 8)
        = true := by
  have hacc := readBitmap_hugeBitmap17
  have hl : payload4GiB.length = 4294967296 := List.length_replicate _ _
  obtain ⟨_, _, _, _, _, hsz, _, hdl⟩ := readBitmap_ok hacc
  have hpl : (putBits 2147483652 2147483649
      (bitsOfBytes [0, 0, 0, 0]) 0 hugePixels17.data).length = hugePixels17.dataLength := by
    rw [putBits_length, hdl]
  refine ⟨hacc, _, embed_eq_of_embedData hacc _ _ embedData_payload4GiB hpl,
    by rw [hl]; decide, ?_, by decide, by decide⟩
  rw [splice_slice _ _ _ _ hsz hpl]
  show (putBits 2147483652 2147483649 (bitsOfBytes [0, 0, 0, 0]) 0 hugePixels17.data)[32]?
    = some 0
  rw [putBits_getElem?_of_ne]
  · show ((hugeBitmap17.drop 54).take 36507222084)[32]? = some 0
    rw [List.getElem?_take_of_lt (by decide), List.getElem?_drop]
    unfold hugeBitmap17
    rw [List.getElem?_append_right (by rw [mkHeader_length]; decide), mkHeader_length,
      List.getElem?_replicate]
    decide
  · intro k hk
    rw [bitsOfBytes_length] at hk
    have hk' : k < 32 := hk
    have := offsetOf_strictMono 2147483652 2147483649 (by decide) (by decide)
      (show 0 + k < 32 by omega)
    have e : offsetOf 2147483652 2147483649 32 = 32 := by decide
    omega

/-- C10, amended.  After every successful embed of a payload `P` whose frame length
`len(P) + 4` fits 32 bits into an accepted bitmap whose pixel-data size
`align(width*3, 4) * height` fits `size_t`, with
`frame = (len(P) as 4 little-endian bytes) ++ P`, which has `len(P) + 4` bytes: the
pixel buffer in the output file is the one the write branch produced by writing the
`len(P) + 4` bytes of `frame`, the frame's bit count is within `availableLength`,
which is within the pixel buffer, and for every bit index `k < (len(P) + 4) * 8` the
offset `(k / rowAvailableLength) * rowLength + (k mod rowAvailableLength)` lies inside
the pixel buffer and the least-significant bit of the byte there is bit `k mod 8` of
frame byte `k / 8`. -/
theorem embedded_frame_layout (file P out : List Byte) (bmp : Bitmap)
    (hacc : readBitmap file = .ok bmp)
    (hno : align (hdrWidth file * 3) 4 * hdrHeight file < SIZE)
    (hP : P.length + 4 < U32)
    (hemb : embed file P = .ok out) :
    (le32Bytes P.length ++ P).length = P.length + 4 ∧
    writeDataToLeastSignificantBitPerRow bmp.data (le32Bytes P.length ++ P) bmp.rowLength
        bmp.rowAvailableLength (P.length + 4)
      = .ok ((out.drop (hdrDataOffset file)).take bmp.dataLength) ∧
    embedData bmp P = .ok ((out.drop (hdrDataOffset file)).take bmp.dataLength) ∧
    ((P.length + 4) * 8 ≤ bmp.availableLength ∧ bmp.availableLength ≤ bmp.dataLength ∧
      ((out.drop (hdrDataOffset file)).take bmp.dataLength).length = bmp.dataLength) ∧
    ∀ k, k < (P.length + 4) * 8 →
      k / bmp.rowAvailableLength * bmp.rowLength + k % bmp.rowAvailableLength
        < bmp.dataLength ∧
      ∃ v, ((out.drop (hdrDataOffset file)).take bmp.dataLength)[
          k / bmp.rowAvailableLength * bmp.rowLength + k % bmp.rowAvailableLength]? = some v ∧
        getBit v 0 = getBit ((le32Bytes P.length ++ P).getD (k / 8) 0) (k % 8) := by
  obtain ⟨_, _, hrl0, _, _, hsz, _, hdl⟩ := readBitmap_ok hacc
  have hw : hdrWidth file < 4294967296 := le32_lt file 18
  have hrl : bmp.rowLength = align (hdrWidth file * 3) 4 := by
    rw [hrl0, align_four _ (by unfold SIZE; omega)]
  have hfit : bmp.availableLength ≤ bmp.dataLength :=
    avail_le_data_of_noOverflow hacc (by rw [hrl]; exact hno)
  have hP' : P.length < U32 := by omega
  have hc := embed_cases hacc P hP'
  have hd := embedData_cases hacc P hP'
  rw [hemb] at hc
  by_cases h1 : bmp.availableLength < (P.length + 4) * 8
  · rw [if_pos h1] at hc; cases hc
  rw [if_neg h1] at hc hd
  by_cases h2 : U32 ≤ P.length + 4
  · rw [if_pos h2] at hc; cases hc
  rw [if_neg h2] at hc hd
  by_cases h3 : ∀ k, k < 8 * (P.length + 4) →
      offsetOf bmp.rowLength bmp.rowAvailableLength k < bmp.data.length
  swap
  · rw [if_neg h3] at hc; cases hc
  rw [if_pos h3] at hc hd
  injection hc with hc
  have hra : 0 < bmp.rowAvailableLength := rowAvailable_pos hacc (by omega)
  have hle := (row_geometry hacc).1
  have hpl : (putBits bmp.rowLength bmp.rowAvailableLength
      (bitsOfBytes (le32Bytes P.length ++ P)) 0 bmp.data).length = bmp.dataLength := by
    rw [putBits_length, hdl]
  have hpix : (out.drop (hdrDataOffset file)).take bmp.dataLength
      = putBits bmp.rowLength bmp.rowAvailableLength
        (bitsOfBytes (le32Bytes P.length ++ P)) 0 bmp.data := by
    rw [hc, splice_slice file _ _ _ hsz hpl]
  rw [hpix]
  refine ⟨frame_length P, ?_, hd, ⟨by omega, hfit, hpl⟩, ?_⟩
  · rw [writeData_eq _ _ hra hle _ _ _ (by rw [frame_length]), if_pos h3,
      ← frame_length P, List.take_length]
  · intro k hk
    have hin := h3 k (by omega)
    have hb := putBits_lsb _ _ hra hle (bitsOfBytes (le32Bytes P.length ++ P)) 0 bmp.data k
      (by rw [bitsOfBytes_length, frame_length]; omega)
      (by rw [Nat.zero_add]; exact hin)
    rw [Nat.zero_add, bitsOfBytes_getElem? _ k (by rw [frame_length]; omega)] at hb
    obtain ⟨v, hv, hg⟩ := Option.map_eq_some'.1 hb
    rw [hdl] at hin
    exact ⟨hin, v, hv, hg⟩

/-- C10, witness: the payload `[0x41]` embedded in a 4×4 bitmap. -/
theorem embedded_frame_layout_witness :
    ∃ out, embed bitmap4x4 [0x41] = .ok out ∧
      ∀ k, k < (([0x41] : List Byte).length + 4) * 8 →
        k / pixels4x4.rowAvailableLength * pixels4x4.rowLength
          + k % pixels4x4.rowAvailableLength < pixels4x4.dataLength ∧
        ∃ v, ((out.drop (hdrDataOffset bitmap4x4)).take pixels4x4.dataLength)[
            k / pixels4x4.rowAvailableLength * pixels4x4.rowLength
              + k % pixels4x4.rowAvailableLength]? = some v ∧
          getBit v 0
            = getBit ((le32Bytes ([0x41] : List Byte).length ++ [0x41]).getD (k / 8) 0) (k % 8) :=
  ⟨mkHeader 54 4 4 ++ ([0xff, 0xfe, 0xfe, 0xfe, 0xfe, 0xfe, 0xfe, 0xfe] ++ List.replicate 24 0xfe
      ++ [0xff, 0xfe, 0xfe, 0xfe, 0xfe, 0xfe, 0xff, 0xfe] ++ List.replicate 8 0xff),
    by decide,
    (embedded_frame_layout bitmap4x4 [0x41] _ pixels4x4 (by decide) (by decide) (by decide)
      (by decide)).2.2.2.2⟩

/-! ## C11: write then read -/

/-- C11.  For every geometry with `0 < rowAvailableLength ≤ rowLength`, every pixel
buffer of at least `rowLength * height` bytes, every source byte sequence `S` with
`len(S) * 8 ≤ rowAvailableLength * height` and every destination of at least
`len(S)` bytes, whatever its prior content: `writeDataToLeastSignificantBitPerRow`
returns a buffer, and `readDataFromLeastSignificantBitPerRow` applied to it with
`readLength = len(S)` returns exactly `S`. -/
theorem bitPacker_roundTrip (buffer S destnation : List Byte)
    (rowLength rowAvailableLength height : Nat)
    (hra : 0 < rowAvailableLength) (hle : rowAvailableLength ≤ rowLength)
    (hbuf : rowLength * height ≤ buffer.length)
    (hcap : S.length * 8 ≤ rowAvailableLength * height)
    (hdst : S.length ≤ destnation.length) :
    ∃ buffer', writeDataToLeastSignificantBitPerRow buffer S rowLength rowAvailableLength
        S.length = .ok buffer' ∧
      readDataFromLeastSignificantBitPerRow destnation buffer' rowLength rowAvailableLength
        S.length = .ok S := by
  have hin : ∀ k, k < 8 * S.length → offsetOf rowLength rowAvailableLength k < buffer.length :=
    fun k hk => lt_of_lt_of_le (offsetOf_lt _ _ height k hra hle (by omega)) hbuf
  refine ⟨_, writeData_returns buffer S _ _ height _ hra hle (le_refl _) hcap hbuf, ?_⟩
  rw [List.take_length, readData_eq _ _ hra hle _ _ _ hdst, if_pos]
  · congr 1
    apply unpack_eq_of_lsb
    · rw [List.length_take, Nat.min_eq_left hdst]
    · intro k hk
      rw [Nat.zero_add]
      exact lsbAt_putBits _ _ hra hle _ _ k (by rw [bitsOfBytes_length]; exact hk) (hin k hk)
  · intro k hk
    rw [putBits_length]
    exact hin k hk

/-- C11, witness: two bytes written to and read back from a buffer of 2 rows with
`rowAvailableLength = 30`, `rowLength = 32`, into a destination holding `[7, 9]`. -/
theorem bitPacker_roundTrip_witness :
    ∃ buffer', writeDataToLeastSignificantBitPerRow (List.replicate 64 0xff) [0x41, 0x42] 32 30
        ([0x41, 0x42] : List Byte).length = .ok buffer' ∧
      readDataFromLeastSignificantBitPerRow [7, 9] buffer' 32 30
        ([0x41, 0x42] : List Byte).length = .ok [0x41, 0x42] :=
  bitPacker_roundTrip (List.replicate 64 0xff) [0x41, 0x42] [7, 9] 32 30 2 (by decide)
    (by decide) (by decide) (by decide) (by decide)

/-! ## C12: only bit 0 changes -/

/-- C12.  `setBit(x, 0, b)` leaves bits 1..7 of `x` unchanged, and so, for every
pixel buffer, geometry and source, `writeDataToLeastSignificantBitPerRow` changes at
most bit 0 of any byte: the buffer it returns has the same length and at every
offset `j` the output byte and the input byte agree on bits 1..7
(`out[j] >> 1 == in[j] >> 1`).  The write does return when the source is within
capacity (`writeLength * 8 ≤ rowAvailableLength * height`, the buffer having its
`rowLength * height` bytes, `0 < rowAvailableLength ≤ rowLength`). -/
theorem write_changes_only_lsb (dest source : List Byte)
    (rowLength rowAvailableLength height writeLength : Nat) :
    (∀ (x : Byte) (b : Bool), (setBit x 0 b).val >>> 1 = x.val >>> 1) ∧
    (∀ dest' : List Byte, writeDataToLeastSignificantBitPerRow dest source rowLength rowAvailableLength
        writeLength = .ok dest' →
      dest'.length = dest.length ∧
      ∀ j : Nat, (dest'[j]?).map (fun v : Byte => v.val >>> 1) = (dest[j]?).map (fun v : Byte => v.val >>> 1)) ∧
    (0 < rowAvailableLength → rowAvailableLength ≤ rowLength → writeLength ≤ source.length →
      writeLength * 8 ≤ rowAvailableLength * height → rowLength * height ≤ dest.length →
      ∃ dest' : List Byte, writeDataToLeastSignificantBitPerRow dest source rowLength rowAvailableLength
        writeLength = .ok dest') :=
  ⟨setBit_zero_shiftRight,
    fun _ h => ⟨writeData_length _ _ _ _ _ _ h, writeData_high _ _ _ _ _ _ h⟩,
    fun hra hle hsrc hcap hbuf =>
      ⟨_, writeData_returns dest source _ _ height _ hra hle hsrc hcap hbuf⟩⟩

/-- C12, witness: one byte written into a buffer of 2 rows with
`rowAvailableLength = 30`, `rowLength = 32`. -/
theorem write_changes_only_lsb_witness :
    ∃ dest' : List Byte, writeDataToLeastSignificantBitPerRow (List.replicate 64 0xab) [0x41] 32 30 1
        = .ok dest' ∧
      dest'.length = (List.replicate 64 (0xab : Byte)).length ∧
      ∀ j : Nat, (dest'[j]?).map (fun v : Byte => v.val >>> 1)
        = ((List.replicate 64 (0xab : Byte))[j]?).map (fun v : Byte => v.val >>> 1) :=
  have h := write_changes_only_lsb (List.replicate 64 0xab) [0x41] 32 30 2 1
  (h.2.2 (by decide) (by decide) (by decide) (by decide) (by decide)).elim
    fun dest' hd => ⟨dest', hd, h.2.1 dest' hd⟩

/-! ## C13: the offsets the cursor returns -/

/-- C13.  For every geometry with `0 < rowAvailableLength ≤ rowLength`, starting
from offset 0, the `n`-th call (`n = 0, 1, 2, …`) of `moveToNextAvailableByte`
returns the offset `(n / rowAvailableLength) * rowLength + (n mod rowAvailableLength)`.
These offsets are strictly increasing, they are exactly the non-padding offsets (the
`j` with `j mod rowLength < rowAvailableLength`), and for
`n < rowAvailableLength * height` they are smaller than `rowLength * height`.  When
`rowAvailableLength = rowLength` no call ever jumps, and the `n`-th offset is `n`. -/
theorem cursor_enumeration (rowLength rowAvailableLength : Nat)
    (hra : 0 < rowAvailableLength) (hle : rowAvailableLength ≤ rowLength) :
    (∀ count n, n < count →
      (cursorOffsets rowLength rowAvailableLength count 0)[n]?
        = some (n / rowAvailableLength * rowLength + n % rowAvailableLength)) ∧
    (∀ count, (cursorOffsets rowLength rowAvailableLength count 0).length = count) ∧
    (∀ m n, m < n →
      m / rowAvailableLength * rowLength + m % rowAvailableLength
        < n / rowAvailableLength * rowLength + n % rowAvailableLength) ∧
    (∀ j, j % rowLength < rowAvailableLength ↔
      ∃ n, j = n / rowAvailableLength * rowLength + n % rowAvailableLength) ∧
    (∀ height n, n < rowAvailableLength * height →
      n / rowAvailableLength * rowLength + n % rowAvailableLength < rowLength * height) ∧
    (rowAvailableLength = rowLength →
      (∀ cur, moveToNextAvailableByte cur rowLength rowAvailableLength = .ok (cur, cur + 1)) ∧
      ∀ n, n / rowAvailableLength * rowLength + n % rowAvailableLength = n) := by
  have heq : ∀ count, cursorOffsets rowLength rowAvailableLength count 0
      = (List.range' 0 count).map (offsetOf rowLength rowAvailableLength) := by
    intro count
    have := cursorOffsets_eq rowLength rowAvailableLength hra hle count 0
    rwa [offsetOf_zero] at this
  refine ⟨fun count n hn => ?_, fun count => ?_, fun m n hmn => ?_, fun j => ⟨fun hj => ?_, ?_⟩,
    fun height n hn => ?_, fun he => ⟨fun cur => ?_, fun n => ?_⟩⟩
  · rw [heq, List.getElem?_map, List.getElem?_range' _ _ hn]
    simp [offsetOf]
  · rw [heq, List.length_map, List.length_range']
  · exact offsetOf_strictMono _ _ hra hle hmn
  · exact ⟨_, (offsetOf_onto rowLength rowAvailableLength j hra hj).symm⟩
  · rintro ⟨n, rfl⟩
    have := offsetOf_mod rowLength rowAvailableLength n hra hle
    unfold offsetOf at this
    rw [this]
    exact Nat.mod_lt n hra
  · exact offsetOf_lt _ _ height n hra hle hn
  · subst he
    exact move_no_jump cur _ hra
  · subst he
    rw [Nat.mul_comm]
    exact Nat.div_add_mod n _

/-- C13, witness: rows of 6 available bytes in 8; the first 8 calls. -/
theorem cursor_enumeration_witness :
    cursorOffsets 8 6 8 0 = [0, 1, 2, 3, 4, 5, 8, 9] ∧
    (cursorOffsets 8 6 8 0)[7]? = some (7 / 6 * 8 + 7 % 6) :=
  ⟨by decide, (cursor_enumeration 8 6 (by decide) (by decide)).1 8 7 (by decide)⟩

/-! ## C14: the lengths of a row -/

/-- C14.  For every accepted file (the width is a 32-bit field), `readBitmap`
computes `rowAvailableLength = width * 3` and `rowLength = align(width * 3, 4)`; and
for every 32-bit width `align(width * 3, 4)` is the least multiple of 4 that is at least
`width * 3`, so `rowLength mod 4 = 0` and `0 ≤ rowLength - rowAvailableLength ≤ 3`.
Width 2 gives 6 and 8, width 10 gives 30 and 32. -/
theorem readBitmap_row_lengths (file : List Byte) (bmp : Bitmap)
    (hacc : readBitmap file = .ok bmp) :
    hdrWidth file < U32 ∧
    bmp.rowAvailableLength = hdrWidth file * 3 ∧
    bmp.rowLength = align (hdrWidth file * 3) 4 ∧
    bmp.rowLength % 4 = 0 ∧
    bmp.rowAvailableLength ≤ bmp.rowLength ∧ bmp.rowLength - bmp.rowAvailableLength ≤ 3 ∧
    (∀ m, m % 4 = 0 → bmp.rowAvailableLength ≤ m → bmp.rowLength ≤ m) ∧
    (∀ width, width < U32 →
      (width * 3) % SIZE = width * 3 ∧ align (width * 3) 4 % 4 = 0 ∧
      width * 3 ≤ align (width * 3) 4 ∧ align (width * 3) 4 - width * 3 ≤ 3 ∧
      ∀ m, m % 4 = 0 → width * 3 ≤ m → align (width * 3) 4 ≤ m) ∧
    (hdrWidth file = 2 → bmp.rowAvailableLength = 6 ∧ bmp.rowLength = 8) ∧
    (hdrWidth file = 10 → bmp.rowAvailableLength = 30 ∧ bmp.rowLength = 32) := by
  have hw : hdrWidth file < 4294967296 := le32_lt file 18
  have gen : ∀ width, width < U32 →
      (width * 3) % SIZE = width * 3 ∧ align (width * 3) 4 % 4 = 0 ∧
      width * 3 ≤ align (width * 3) 4 ∧ align (width * 3) 4 - width * 3 ≤ 3 ∧
      ∀ m, m % 4 = 0 → width * 3 ≤ m → align (width * 3) 4 ≤ m := by
    intro width hwd
    unfold U32 at hwd
    rw [align_four _ (by unfold SIZE; omega)]
    refine ⟨Nat.mod_eq_of_lt (by unfold SIZE; omega), by omega, by omega, by omega, ?_⟩
    intro m hm hle
    omega
  obtain ⟨_, h2, h3, _⟩ := readBitmap_ok hacc
  have hal : bmp.rowLength = align (hdrWidth file * 3) 4 := by
    rw [h3, align_four _ (by unfold SIZE; omega)]
  obtain ⟨_, g2, g3, g4, g5⟩ := gen (hdrWidth file) hw
  rw [← hal] at g2 g3 g4 g5
  rw [← h2] at g3 g4 g5
  refine ⟨hw, h2, hal, g2, g3, g4, g5, gen, fun e => ?_, fun e => ?_⟩
  · rw [h2, h3, e]; exact ⟨rfl, rfl⟩
  · rw [h2, h3, e]; exact ⟨rfl, rfl⟩

/-- C14, witness: the 2×2 bitmap `bitmap2x2`, of width 2. -/
theorem readBitmap_row_lengths_witness :
    hdrWidth bitmap2x2 = 2 ∧
    ∃ bmp, readBitmap bitmap2x2 = .ok bmp ∧ bmp.rowAvailableLength = 6 ∧ bmp.rowLength = 8 :=
  ⟨by decide, _, by decide,
    (readBitmap_row_lengths bitmap2x2
      { data := List.replicate 16 0xff, dataLength := 16, availableLength := 12,
        rowLength := 8, rowAvailableLength := 6 } (by decide)).2.2.2.2.2.2.2.2.1 (by decide)⟩

/-! ## C15: extract then embed -/

/-- C15.  For every bitmap file on which the extract path succeeds and returns the
payload `P` (the file is then accepted and every read was inside the pixel buffer),
the embed path with that same bitmap and `P` succeeds and produces an output file
byte-identical to the input bitmap file. -/
theorem extract_embed_identity (file P : List Byte) (junk : Nat → Byte)
    (hext : extract junk file = .ok P) : embed file P = .ok file := by
  unfold extract at hext
  cases hacc : readBitmap file with
  | error e => rw [hacc] at hext; cases hext
  | ok bmp =>
    rw [hacc] at hext
    simp only [] at hext
    obtain ⟨hra, hcap, hlt, hin, hP⟩ := extractData_ok_inv hacc junk P hext
    have hle := (row_geometry hacc).1
    obtain ⟨_, _, _, _, _, _, hdata, hdl⟩ := readBitmap_ok hacc
    generalize hd : le32 (unpack bmp.rowLength bmp.rowAvailableLength bmp.data 0
      (uninit junk 4)) 0 = d at hcap hlt hin hP
    have hBl : (unpack bmp.rowLength bmp.rowAvailableLength bmp.data 0
        (uninit junk (4 + d))).length = 4 + d := by
      rw [unpack_length, uninit_length]
    have h4 : (unpack bmp.rowLength bmp.rowAvailableLength bmp.data 0
        (uninit junk (4 + d))).take 4 = le32Bytes d := by
      rw [unpack_take, ← hd]
      rw [unpack_congr_lsb _ _ _ bmp.data 0 _ (uninit junk 4)
        (by rw [List.length_take, uninit_length, uninit_length]; omega) (fun _ _ => rfl)]
      exact (le32Bytes_le32 _ (by rw [unpack_length, uninit_length])).symm
    have hPd : P = (unpack bmp.rowLength bmp.rowAvailableLength bmp.data 0
        (uninit junk (4 + d))).drop 4 := by
      rw [hP, List.take_of_length_le (by rw [List.length_drop, hBl]; omega)]
    have hPl : P.length = d := by
      rw [hPd, List.length_drop, hBl]; omega
    have hframe : le32Bytes P.length ++ P
        = unpack bmp.rowLength bmp.rowAvailableLength bmp.data 0 (uninit junk (4 + d)) := by
      rw [hPl, ← h4, hPd, List.take_append_drop]
    have hput : putBits bmp.rowLength bmp.rowAvailableLength
        (bitsOfBytes (le32Bytes P.length ++ P)) 0 bmp.data = bmp.data := by
      apply putBits_self
      intro k hk
      rw [hframe] at hk ⊢
      rw [bitsOfBytes_length, hBl] at hk
      exact bitsOfBytes_unpack _ _ _ 0 _ k (by rw [uninit_length]; exact hk)
    have hemb : embedData bmp P = .ok bmp.data := by
      rw [embedData_cases hacc P (by rw [hPl]; omega), hPl, if_neg (by omega),
        if_neg (by omega), if_pos (fun k hk => hin k (by omega)), ← hPl, hput]
    rw [embed_eq_of_embedData hacc P _ hemb hdl]
    congr 1
    conv => lhs; rw [hdata]
    exact splice_self file _ _

/-- C15, witness: the 4×4 bitmap in which the payload `[0x41]` is embedded. -/
theorem extract_embed_identity_witness :
    extract (fun _ => 0) stego4x4 = .ok [0x41] ∧ embed stego4x4 [0x41] = .ok stego4x4 :=
  ⟨by decide, extract_embed_identity stego4x4 [0x41] (fun _ => 0) (by decide)⟩

/-! ## C16: the available bytes behind the data -/

/-- C16.  For every geometry with `0 < rowAvailableLength ≤ rowLength` and every
source of which `writeLength` bytes are written:
`writeDataToLeastSignificantBitPerRow` leaves unchanged every available byte whose
row-major index `n` is at least `writeLength * 8`, that is every offset
`(n / rowAvailableLength) * rowLength + (n mod rowAvailableLength)` with
`n ≥ writeLength * 8`, and a byte that differs from the original is one of the first
`writeLength * 8` available bytes; the write does return when
`writeLength * 8 ≤ rowAvailableLength * height` and the buffer has its
`rowLength * height` bytes. -/
theorem write_leaves_tail (dest source : List Byte)
    (rowLength rowAvailableLength height writeLength : Nat)
    (hra : 0 < rowAvailableLength) (hle : rowAvailableLength ≤ rowLength)
    (hsrc : writeLength ≤ source.length) :
    (∀ dest', writeDataToLeastSignificantBitPerRow dest source rowLength rowAvailableLength
        writeLength = .ok dest' →
      (∀ n, writeLength * 8 ≤ n →
        dest'[n / rowAvailableLength * rowLength + n % rowAvailableLength]?
          = dest[n / rowAvailableLength * rowLength + n % rowAvailableLength]?) ∧
      (∀ j, dest'[j]? ≠ dest[j]? →
        ∃ n, n < writeLength * 8 ∧
          j = n / rowAvailableLength * rowLength + n % rowAvailableLength)) ∧
    (writeLength * 8 ≤ rowAvailableLength * height → rowLength * height ≤ dest.length →
      ∃ dest', writeDataToLeastSignificantBitPerRow dest source rowLength rowAvailableLength
        writeLength = .ok dest') := by
  have hw := writeData_eq _ _ hra hle dest source writeLength hsrc
  have hbl : (bitsOfBytes (source.take writeLength)).length = writeLength * 8 := by
    rw [bitsOfBytes_length, List.length_take, Nat.min_eq_left hsrc, Nat.mul_comm]
  constructor
  · intro dest' hok
    rw [hw] at hok
    split_ifs at hok
    injection hok with hok
    subst hok
    constructor
    · intro n hn
      apply putBits_getElem?_of_ne
      intro k hk
      rw [hbl] at hk
      exact ne_of_lt (offsetOf_strictMono _ _ hra hle (by omega))
    · intro j hj
      by_contra hne
      apply hj
      apply putBits_getElem?_of_ne
      intro k hk heq
      rw [hbl] at hk
      exact hne ⟨k, hk, by rw [← heq, Nat.zero_add]; rfl⟩
  · intro hcap hbuf
    exact ⟨_, writeData_returns dest source _ _ height _ hra hle hsrc hcap hbuf⟩

/-- C16, witness: one byte written into a buffer of 2 rows with
`rowAvailableLength = 30`, `rowLength = 32`. -/
theorem write_leaves_tail_witness :
    ∃ dest', writeDataToLeastSignificantBitPerRow (List.replicate 64 0xff) [0x41] 32 30 1
        = .ok dest' ∧
      ∀ n, 1 * 8 ≤ n → dest'[n / 30 * 32 + n % 30]?
        = (List.replicate 64 (0xff : Byte))[n / 30 * 32 + n % 30]? :=
  have h := write_leaves_tail (List.replicate 64 0xff) [0x41] 32 30 2 1 (by decide)
    (by decide) (by decide)
  (h.2 (by decide) (by decide)).elim fun dest' hd => ⟨dest', hd, (h.1 dest' hd).1⟩

/-! ## C17: extraction reads least-significant bits only -/

/-- C17.  For every geometry with `0 < rowAvailableLength ≤ rowLength` and any two
pixel buffers that agree on bit 0 of each of the first `readLength * 8` available
bytes, `readDataFromLeastSignificantBitPerRow` with that `readLength` returns the
same for both, whatever bits 1..7, the padding bytes, the later bytes and the prior
contents of the destinations are.  Hence the read branch of `main` ends the same
(same payload or same failure) on two bitmaps of that geometry whose pixel buffers
agree on bit 0 of the available bytes of the frame, the first `(d + 4) * 8` ones,
`d` being the length the first 32 declare; so does the run `main -r` on two files
from which `readBitmap` takes these bitmaps. -/
theorem read_depends_only_on_lsbs (rowLength rowAvailableLength : Nat)
    (hra : 0 < rowAvailableLength) (hle : rowAvailableLength ≤ rowLength) :
    (∀ (source1 source2 destnation1 destnation2 : List Byte) (readLength : Nat),
      readLength ≤ destnation1.length → readLength ≤ destnation2.length →
      (∀ k, k < readLength * 8 →
        (source1[k / rowAvailableLength * rowLength + k % rowAvailableLength]?).map
            (fun v : Byte => getBit v 0)
          = (source2[k / rowAvailableLength * rowLength + k % rowAvailableLength]?).map
            (fun v : Byte => getBit v 0)) →
      readDataFromLeastSignificantBitPerRow destnation1 source1 rowLength rowAvailableLength
          readLength
        = readDataFromLeastSignificantBitPerRow destnation2 source2 rowLength
          rowAvailableLength readLength) ∧
    (∀ (bmp1 bmp2 : Bitmap) (junk1 junk2 : Nat → Byte),
      bmp1.rowLength = rowLength → bmp1.rowAvailableLength = rowAvailableLength →
      bmp2.rowLength = rowLength → bmp2.rowAvailableLength = rowAvailableLength →
      bmp2.availableLength = bmp1.availableLength →
      (∀ k, k < (declaredLength rowLength rowAvailableLength bmp1.data + 4) * 8 →
        (bmp1.data[k / rowAvailableLength * rowLength + k % rowAvailableLength]?).map
            (fun v : Byte => getBit v 0)
          = (bmp2.data[k / rowAvailableLength * rowLength + k % rowAvailableLength]?).map
            (fun v : Byte => getBit v 0)) →
      extractData junk1 bmp1 = extractData junk2 bmp2 ∧
      ∀ file1 file2, readBitmap file1 = .ok bmp1 → readBitmap file2 = .ok bmp2 →
        extract junk1 file1 = extract junk2 file2) := by
  constructor
  · intro s1 s2 d1 d2 n h1 h2 hag
    exact readData_congr _ _ hra hle _ _ _ _ _ h1 h2 (fun k hk => hag k (by omega))
  · intro bmp1 bmp2 junk1 junk2 hL1 hR1 hL2 hR2 hA hag
    subst hL1 hR1
    have hE := extractData_congr bmp1 bmp2 junk1 junk2 hra hle hA hL2 hR2 hag
    refine ⟨hE, fun file1 file2 h1 h2 => ?_⟩
    unfold extract
    rw [h1, h2]
    exact hE

/-- C17, witness: one byte read from two buffers of 2 rows
(`rowAvailableLength = 30`, `rowLength = 32`), one of bytes `0xff`, one of bytes
`0x01`, into destinations holding 7 and 9. -/
theorem read_depends_only_on_lsbs_witness :
    readDataFromLeastSignificantBitPerRow [7] (List.replicate 64 0xff) 32 30 1
      = readDataFromLeastSignificantBitPerRow [9] (List.replicate 64 0x01) 32 30 1 ∧
    readDataFromLeastSignificantBitPerRow [7] (List.replicate 64 0xff) 32 30 1 = .ok [0xff] :=
  ⟨(read_depends_only_on_lsbs 32 30 (by decide) (by decide)).1
      (List.replicate 64 0xff) (List.replicate 64 0x01) [7] [9] 1 (by decide) (by decide)
      (by decide),
    by decide⟩

/-! ## C18: no division by zero -/

/-- C18.  In every run of `main` on an accepted bitmap, `moveToNextAvailableByte` is
only ever called with `rowLength > 0`, so no run, whatever the payload and whatever
uninitialised storage holds, ends in the division by zero of `i / rowLength`.  A
bitmap with `width == 0` (`rowLength == 0`, `availableLength == 0`) is rejected by the
extract size check (`availableLength < 4`) and by the embed capacity check
(`requiredBytes >= 32 > 0`) before any cursor call; the payload there is a file that
`readFile` holds in memory, so that its bit count `(len(P) + 4) * 8` is a `size_t`. -/
theorem division_guard (file : List Byte) (bmp : Bitmap) (hacc : readBitmap file = .ok bmp) :
    (∀ P, embed file P ≠ .error .divisionByZero) ∧
    (∀ junk, extract junk file ≠ .error .divisionByZero) ∧
    (bmp.rowLength = 0 ↔ hdrWidth file = 0) ∧
    (hdrWidth file = 0 →
      bmp.rowLength = 0 ∧ bmp.availableLength = 0 ∧
      (∀ junk, extract junk file = .error .bitmapTooSmall) ∧
      ∀ P : List Byte, (P.length + 4) * 8 < SIZE →
        ((P.length + sizeofU32) % SIZE * 8) % SIZE ≥ 32 ∧
        embed file P = .error .insufficientCapacity) := by
  obtain ⟨_, h2, h3, _, hA, _⟩ := readBitmap_ok hacc
  refine ⟨fun P => embed_no_div hacc P, fun junk => ?_, ?_, fun hw => ?_⟩
  · unfold extract
    rw [hacc]
    exact extractData_no_div hacc junk
  · rw [h3]
    omega
  · have hrl : bmp.rowLength = 0 := by rw [h3, hw]
    have hav : bmp.availableLength = 0 := by
      rw [hA, h2, hw]; simp
    refine ⟨hrl, hav, fun junk => ?_, fun P hP => ?_⟩
    · unfold extract
      rw [hacc]
      simp only []
      unfold extractData
      rw [if_pos (by rw [hav]; decide)]
    · have e1 : ((P.length + sizeofU32) % SIZE * 8) % SIZE = (P.length + 4) * 8 := by
        unfold sizeofU32 SIZE at *; omega
      refine ⟨by rw [e1]; omega, embed_capacity_fail hacc P (by rw [e1, hav]; omega)⟩

/-- C18, witness: the bitmap `zeroWidthFile` of width 0 and the payload `[0x41]`. -/
theorem division_guard_witness :
    hdrWidth zeroWidthFile = 0 ∧
    (∀ junk, extract junk zeroWidthFile = .error .bitmapTooSmall) ∧
    embed zeroWidthFile [0x41] = .error .insufficientCapacity :=
  have h := (division_guard zeroWidthFile _ readBitmap_zeroWidthFile).2.2.2 (by decide)
  ⟨by decide, h.2.2.1, (h.2.2.2 [0x41] (by decide)).2⟩

end Stego
